import Mathlib

/-!
Verification of the Disk-Jockey game server against its specification.

The development shallowly embeds the server's TypeScript sources:
strings are `List Char`, JavaScript `Map`s are association lists that
preserve insertion order, fractional similarity scores are rationals,
and the regular-expression transformations of `fuzzyMatch.ts` are
written out as explicit character scanners with JavaScript regex
semantics (leftmost match, greedy quantifiers, `\b` word boundaries
over the ASCII `\w` class, `.` stopping at a newline).  Scanners whose
recursion is not structural take an explicit fuel argument; every
top-level wrapper passes the input length as fuel, which always
suffices because each step consumes at least one character.
-/

/-! ## Character classes (JavaScript `\w`, `\s` over ASCII) -/

/-- JavaScript `\w`: ASCII letters, digits and underscore. -/
def isWordChar (c : Char) : Bool :=
  ('a' ≤ c && c ≤ 'z') || ('A' ≤ c && c ≤ 'Z') || ('0' ≤ c && c ≤ '9') || c == '_'

/-- JavaScript `\s`, restricted to the ASCII whitespace characters. -/
def isWsChar (c : Char) : Bool :=
  c == ' ' || c == '\t' || c == '\n' || c == '\r' || c == '\x0b' || c == '\x0c'

/-- ASCII letter (the character class `[a-z]` under the `i` flag). -/
def isAsciiLetter (c : Char) : Bool :=
  ('a' ≤ c && c ≤ 'z') || ('A' ≤ c && c ≤ 'Z')

/-- ASCII uppercase letter. -/
def isUpperAZ (c : Char) : Bool := 'A' ≤ c && c ≤ 'Z'

/-- Strings of the embedding are plain character lists. -/
abbrev Str := List Char

/-! ## `normalizeString` (src/lib/fuzzyMatch.ts, lines 51-82) -/

/-- The noise words of `TITLE_NOISE_WORDS`, in source order. -/
def TITLE_NOISE_WORDS : List Str :=
  ["remastered".toList, "remaster".toList, "remix".toList, "radio edit".toList,
   "radio version".toList, "single version".toList, "album version".toList,
   "live".toList, "acoustic".toList, "instrumental".toList, "extended".toList,
   "explicit".toList, "clean".toList, "version".toList, "edit".toList,
   "mix".toList, "deluxe".toList, "bonus track".toList, "original".toList,
   "mono".toList, "stereo".toList, "anniversary".toList, "edition".toList,
   "feat".toList, "featuring".toList, "ft".toList, "with".toList]

/-- Drop characters up to and including the first occurrence of `close`;
`none` when `close` never occurs. -/
def dropToClose (close : Char) : List Char → Option (List Char)
  | [] => none
  | c :: cs => if c = close then some cs else dropToClose close cs

/-- Scanner for `replace(/\(...\)/g, '')` (and the bracket variant): on an
opening character, drop through the next closing character if it exists,
otherwise leave the rest untouched (the regex cannot match without a
closing character anywhere to the right). -/
def removeEnclosedAux (opn close : Char) : Nat → List Char → List Char
  | 0, l => l
  | _ + 1, [] => []
  | fuel + 1, c :: rest =>
    if c = opn then
      match dropToClose close rest with
      | some after => removeEnclosedAux opn close fuel after
      | none => c :: rest
    else c :: removeEnclosedAux opn close fuel rest

def removeEnclosed (opn close : Char) (l : List Char) : List Char :=
  removeEnclosedAux opn close l.length l

/-- The alternation of the dash-suffix regex (fuzzyMatch.ts line 59). -/
def dashWords : List Str :=
  ["remastered".toList, "remaster".toList, "remix".toList, "live".toList,
   "acoustic".toList, "radio".toList, "single".toList, "album".toList,
   "version".toList, "edit".toList, "mix".toList, "deluxe".toList,
   "bonus".toList, "original".toList, "mono".toList, "stereo".toList,
   "anniversary".toList, "edition".toList, "feat".toList, "featuring".toList,
   "ft".toList, "with".toList]

def isDashChar (c : Char) : Bool := c == '-' || c == '–' || c == '—'

/-- If the pattern `\s*[-–—]\s*(remastered|…|with).*` matches starting at the
head of `l`, return what is left after the match (`.*` stops before a
newline); otherwise `none`. -/
def dashRemainder (l : List Char) : Option (List Char) :=
  match l.dropWhile isWsChar with
  | [] => none
  | d :: after =>
    if isDashChar d && dashWords.any (fun w => w.isPrefixOf (after.dropWhile isWsChar)) then
      some ((after.dropWhile isWsChar).dropWhile (fun x => !(x == '\n')))
    else none

def removeDashVersionAux : Nat → List Char → List Char
  | 0, l => l
  | _ + 1, [] => []
  | fuel + 1, c :: rest =>
    match dashRemainder (c :: rest) with
    | some after => removeDashVersionAux fuel after
    | none => c :: removeDashVersionAux fuel rest

def removeDashVersion (l : List Char) : List Char :=
  removeDashVersionAux l.length l

/-- One optional element of the acronym regex tail `\.?([a-z])?\.?([a-z])?\.?([a-z])?`. -/
inductive AcroSlot | dot | ltr
deriving DecidableEq

/-- Backtracking matcher for the acronym tail followed by `\b`.  Returns the
captured letters, whether the last consumed character of the whole match is a
word character, and the rest of the input; greedy options are tried
consume-first, exactly as the JavaScript engine does. -/
def acroTail : List AcroSlot → Bool → List Char → Option (List Char × Bool × List Char)
  | [], lastWord, rest =>
    let nextWord := match rest with | [] => false | c :: _ => isWordChar c
    if lastWord != nextWord then some ([], lastWord, rest) else none
  | slot :: slots, lastWord, rest =>
    let consumed : Option (List Char × Bool × List Char) :=
      match slot, rest with
      | AcroSlot.dot, c :: cs =>
        if c = '.' then acroTail slots false cs else none
      | AcroSlot.ltr, c :: cs =>
        if isAsciiLetter c then
          match acroTail slots true cs with
          | some (cap, lw, r) => some (c :: cap, lw, r)
          | none => none
        else none
      | _, [] => none
    match consumed with
    | some res => some res
    | none => acroTail slots lastWord rest

/-- Scanner for the acronym regex
`\b([a-z])\.([a-z])\.([a-z])\.?([a-z])?\.?([a-z])?\.?([a-z])?\b` with
replacement `$1$2$3$4$5$6`; `prevWord` tracks whether the previous character
of the original string is a word character (for the leading `\b`). -/
def collapseAcronymsAux : Nat → Bool → List Char → List Char
  | 0, _, l => l
  | _ + 1, _, [] => []
  | fuel + 1, prevWord, c :: rest =>
    if !prevWord && isAsciiLetter c then
      match rest with
      | d1 :: c2 :: d2 :: c3 :: rest2 =>
        if d1 = '.' && isAsciiLetter c2 && d2 = '.' && isAsciiLetter c3 then
          match acroTail [AcroSlot.dot, AcroSlot.ltr, AcroSlot.dot,
                          AcroSlot.ltr, AcroSlot.dot, AcroSlot.ltr] true rest2 with
          | some (cap, lw, after) =>
            c :: c2 :: c3 :: (cap ++ collapseAcronymsAux fuel lw after)
          | none => c :: collapseAcronymsAux fuel (isWordChar c) rest
        else c :: collapseAcronymsAux fuel (isWordChar c) rest
      | _ => c :: collapseAcronymsAux fuel (isWordChar c) rest
    else c :: collapseAcronymsAux fuel (isWordChar c) rest

def collapseAcronyms (l : List Char) : List Char :=
  collapseAcronymsAux l.length false l

/-- `replace(/\./g, '')`. -/
def removeDots (l : List Char) : List Char :=
  l.filter (fun c => !(c == '.'))

/-- `replace(/[^\w\s]/g, ' ')`. -/
def punctToSpace (l : List Char) : List Char :=
  l.map (fun c => if isWordChar c || isWsChar c then c else ' ')

/-- `\b` holds after the final character of a removed word (every noise word
ends in a letter) iff the next character is absent or not a word character. -/
def boundaryAfterOk (next : List Char) : Bool :=
  match next with
  | [] => true
  | c :: _ => !isWordChar c

/-- Scanner for `replace(new RegExp('\\b' + word + '\\b', 'gi'), '')` for a
noise word `w` (every noise word starts and ends with a letter, so the two
`\b` require a non-word character, or an end, on each side).  `prevWord`
tracks whether the previous character of the original string is a word
character. -/
def removeWordAux (w : List Char) : Nat → Bool → List Char → List Char
  | 0, _, l => l
  | _ + 1, _, [] => []
  | fuel + 1, prevWord, c :: rest =>
    if !prevWord && w.isPrefixOf (c :: rest) && boundaryAfterOk (List.drop w.length (c :: rest)) then
      removeWordAux w fuel true (List.drop w.length (c :: rest))
    else c :: removeWordAux w fuel (isWordChar c) rest

/-- All noise-word removals, in the order of `TITLE_NOISE_WORDS`. -/
def removeNoiseWords (l : List Char) : List Char :=
  TITLE_NOISE_WORDS.foldl (fun acc w => removeWordAux w acc.length false acc) l

/-- `replace(/\s+/g, ' ')`: each maximal whitespace run becomes one space. -/
def collapseWsAux : Bool → List Char → List Char
  | _, [] => []
  | prevWs, c :: rest =>
    if isWsChar c then
      if prevWs then collapseWsAux true rest else ' ' :: collapseWsAux true rest
    else c :: collapseWsAux false rest

def collapseWs (l : List Char) : List Char :=
  collapseWsAux false l

/-- `String.prototype.trim()`. -/
def trimSpaces (l : List Char) : List Char :=
  ((l.dropWhile isWsChar).reverse.dropWhile isWsChar).reverse

/-- `normalizeString` (fuzzyMatch.ts lines 51-82): lowercase, strip
parenthesised and bracketed spans, strip dash-introduced version suffixes,
collapse dotted acronyms, drop dots, map other punctuation to spaces,
remove noise words, collapse whitespace and trim. -/
def normalizeString (input : Str) : Str :=
  let s1 := input.map Char.toLower
  let s2 := removeEnclosed '(' ')' s1
  let s3 := removeEnclosed '[' ']' s2
  let s4 := removeDashVersion s3
  let s5 := collapseAcronyms s4
  let s6 := removeDots s5
  let s7 := punctToSpace s6
  let s8 := removeNoiseWords s7
  trimSpaces (collapseWs s8)

/-! ## Similarity and per-field matching (fuzzyMatch.ts lines 87-201) -/

def SIMILARITY_THRESHOLD : ℚ := mkRat 3 4

def SHORT_STRING_THRESHOLD : ℚ := mkRat 17 20

def SHORT_STRING_LENGTH : Nat := 5

/-- Consecutive character bigrams of a string. -/
def bigramsOf : List Char → List (Char × Char)
  | a :: b :: rest => (a, b) :: bigramsOf (b :: rest)
  | _ => []

/-- Remove the first occurrence of an element. -/
def eraseFirst (x : Char × Char) : List (Char × Char) → List (Char × Char)
  | [] => []
  | y :: ys => if y = x then ys else y :: eraseFirst x ys

/-- Size of the multiset intersection of two bigram lists (each shared
bigram is counted with the smaller of its two multiplicities). -/
def interCount : List (Char × Char) → List (Char × Char) → Nat
  | [], _ => 0
  | x :: xs, ys => if x ∈ ys then interCount xs (eraseFirst x ys) + 1 else interCount xs ys

/-- Modelled from the spec: the Sørensen–Dice bigram coefficient computed by
the external `string-similarity` dependency, which is not part of this
repository.  Per the spec it returns 1 for equal operands, and it is 0
whenever an operand has fewer than two characters (no bigrams). -/
def diceCoefficient (a b : List Char) : ℚ :=
  if a = b then 1
  else if a.length < 2 || b.length < 2 then 0
  else (2 * (interCount (bigramsOf a) (bigramsOf b) : ℚ)) /
    (((a.length : ℚ) - 1) + ((b.length : ℚ) - 1))

/-- `calculateSimilarity` (fuzzyMatch.ts lines 87-102): equality of the
normalized operands is checked before the emptiness guard. -/
def calculateSimilarity (str1 str2 : Str) : ℚ :=
  let norm1 := normalizeString str1
  let norm2 := normalizeString str2
  if norm1 = norm2 then 1
  else if norm1 = [] || norm2 = [] then 0
  else diceCoefficient norm1 norm2

/-- `matchSongTitle` (fuzzyMatch.ts lines 107-118): the stricter threshold is
selected from the length of the normalized guess alone. -/
def matchSongTitle (guess correct : Str) : Bool :=
  let similarity := calculateSimilarity guess correct
  let normalizedGuess := normalizeString guess
  let threshold :=
    if normalizedGuess.length ≤ SHORT_STRING_LENGTH then SHORT_STRING_THRESHOLD
    else SIMILARITY_THRESHOLD
  decide (similarity ≥ threshold)

structure MArtist where
  id : Str
  name : Str
deriving DecidableEq

/-- JavaScript `String.prototype.includes`. -/
def containsSeq (needle : List Char) : List Char → Bool
  | [] => needle.isEmpty
  | c :: rest => needle.isPrefixOf (c :: rest) || containsSeq needle rest

/-- `matchArtist` (fuzzyMatch.ts lines 124-162): any listed artist may match,
either by similarity against a min-length-selected threshold or by
containment with a length ratio of at least one half. -/
def matchArtist (guess : Str) (artists : List MArtist) : Bool :=
  let normalizedGuess := normalizeString guess
  if normalizedGuess = [] then false
  else artists.any fun artist =>
    let similarity := calculateSimilarity guess artist.name
    let normalizedArtistName := normalizeString artist.name
    let threshold :=
      if min normalizedGuess.length normalizedArtistName.length ≤ SHORT_STRING_LENGTH then
        SHORT_STRING_THRESHOLD
      else SIMILARITY_THRESHOLD
    decide (similarity ≥ threshold) ||
      ((containsSeq normalizedGuess normalizedArtistName ||
        containsSeq normalizedArtistName normalizedGuess) &&
       decide (((min normalizedGuess.length normalizedArtistName.length : ℚ) /
         (max normalizedGuess.length normalizedArtistName.length)) ≥ 1 / 2))

inductive RoundResult | BOTH | ONE | NONE
deriving DecidableEq

structure ScoredAnswer where
  result : RoundResult
  songCorrect : Bool
  artistCorrect : Bool
deriving DecidableEq

/-- `scoreAnswer` (fuzzyMatch.ts lines 182-201). -/
def scoreAnswer (songGuess artistGuess correctTitle : Str)
    (correctArtists : List MArtist) : ScoredAnswer :=
  let songCorrect := matchSongTitle songGuess correctTitle
  let artistCorrect := matchArtist artistGuess correctArtists
  let result :=
    if songCorrect && artistCorrect then RoundResult.BOTH
    else if songCorrect || artistCorrect then RoundResult.ONE
    else RoundResult.NONE
  ⟨result, songCorrect, artistCorrect⟩

/-- `getPaceChange` (fuzzyMatch.ts lines 206-215). -/
def getPaceChange : RoundResult → Int
  | RoundResult.BOTH => 1
  | RoundResult.ONE => 0
  | RoundResult.NONE => -3

/-- `clampPace` (fuzzyMatch.ts lines 220-222). -/
def clampPace (pace : Int) : Int :=
  max 0 (min 10 pace)

/-- `getEliminationThreshold` (fuzzyMatch.ts lines 227-235); JavaScript
`Math.floor` division is floor division on integers. -/
def getEliminationThreshold (round : Int) : Int :=
  max 1 (10 - (round - 1).fdiv 6)

/-! ## Data model (src/types, unnamed part_008) -/

structure PlayerAnswer where
  songTitle : Str
  artist : Str
  submittedAt : Int
deriving DecidableEq

structure Player where
  id : Str
  nickname : Str
  pace : Int
  isHost : Bool
  isEliminated : Bool
  isConnected : Bool
  socketId : Option Str
  currentAnswer : Option PlayerAnswer
  hasSubmitted : Bool
  lastRoundResult : Option RoundResult
deriving DecidableEq

inductive GameStatus
  | LOBBY | STARTING | PLAYING | ROUND_REVEAL | ELIMINATION_CHECK | GAME_OVER
deriving DecidableEq

structure Track where
  id : Str
  uri : Str
  name : Str
  artists : List MArtist
  albumName : Str
  albumImageUrl : Option Str
  durationMs : Int
  previewUrl : Option Str
deriving DecidableEq

structure GameState where
  status : GameStatus
  currentRound : Int
  currentTrack : Option Track
  roundStartTime : Option Int
  roundEndTime : Option Int
  isPaused : Bool
  pauseReason : Option Str
  winnerId : Option Str
deriving DecidableEq

structure SpotifyAuth where
  accessToken : Str
  refreshToken : Str
  expiresAt : Int
  userId : Str
deriving DecidableEq

structure PlaylistInfo where
  id : Str
  name : Str
  imageUrl : Option Str
  trackCount : Nat
deriving DecidableEq

structure RoomSettings where
  maxPlayers : Nat
  roundDurationMs : Int
  revealDurationMs : Int
deriving DecidableEq

structure Room where
  code : Str
  hostId : Str
  players : List (Str × Player)
  gameState : GameState
  spotifyAuth : Option SpotifyAuth
  playlist : Option PlaylistInfo
  tracks : List Track
  usedTrackIds : List Str
  createdAt : Int
  settings : RoomSettings
deriving DecidableEq

/-! ## JavaScript `Map` semantics over association lists -/

/-- `Map.set`: update in place when the key exists (preserving insertion
order), otherwise append. -/
def mapSet (k : Str) (v : α) : List (Str × α) → List (Str × α)
  | [] => [(k, v)]
  | (k', v') :: rest => if k' = k then (k, v) :: rest else (k', v') :: mapSet k v rest

/-- `Map.delete`. -/
def mapDelete (k : Str) : List (Str × α) → List (Str × α)
  | [] => []
  | (k', v') :: rest => if k' = k then rest else (k', v') :: mapDelete k rest

def toUpperStr (s : Str) : Str := s.map Char.toUpper

def toLowerStr (s : Str) : Str := s.map Char.toLower

/-! ## Game engine (src/server/gameManager.ts) -/

/-- The per-player scoring update of `GameManager.endRound` (lines 298-336):
eliminated players are skipped; a missing answer scores NONE; the pace delta
is applied and clamped. -/
def endRoundUpdatePlayer (track : Track) (p : Player) : Player :=
  if p.isEliminated then p
  else
    let result :=
      match p.currentAnswer with
      | some ans => (scoreAnswer ans.songTitle ans.artist track.name track.artists).result
      | none => RoundResult.NONE
    let newPace := clampPace (p.pace + getPaceChange result)
    { p with pace := newPace, lastRoundResult := some result }

def endRoundUpdate (track : Track) (players : List (Str × Player)) : List (Str × Player) :=
  players.map (fun e => (e.1, endRoundUpdatePlayer track e.2))

/-- Whether `endRound` arms the reveal timer with `checkEliminations`
(lines 345-357): exactly when the current round is a multiple of 6. -/
def endRoundSchedulesElimination (currentRound : Int) : Bool :=
  currentRound % 6 == 0

structure EliminatedPlayer where
  playerId : Str
  nickname : Str
  pace : Int
  gap : Int
deriving DecidableEq

structure ElimCheckResult where
  updatedPlayers : List (Str × Player)
  threshold : Int
  leaderPace : Int
  eliminated : List EliminatedPlayer
  survivors : List Str
deriving DecidableEq

/-- `Math.max(...activePlayers.map(p => p.pace))` over a non-empty list. -/
def leaderPaceOf (active : List Player) : Int :=
  match active with
  | [] => 0
  | p :: rest => rest.foldl (fun acc q => max acc q.pace) p.pace

/-- The per-player marking step of `GameManager.checkEliminations`
(lines 385-398). -/
def elimUpdatePlayer (leaderPace threshold : Int) (p : Player) : Player :=
  if !p.isEliminated && decide (leaderPace - p.pace ≥ threshold) then
    { p with isEliminated := true }
  else p

inductive ElimOutcome
  | endGameNow (winnerId : Option Str)
  | checked (r : ElimCheckResult)
deriving DecidableEq

/-- `GameManager.checkEliminations` (lines 363-424): with at most one active
player the game ends at once; otherwise every active player whose gap to the
leader reaches the threshold is marked eliminated. -/
def gmCheckEliminations (players : List (Str × Player)) (round : Int) : ElimOutcome :=
  let threshold := getEliminationThreshold round
  let active := (players.map (·.2)).filter (fun p => !p.isEliminated)
  if active.length ≤ 1 then
    ElimOutcome.endGameNow (active.head?.map (·.id))
  else
    let leaderPace := leaderPaceOf active
    let updated := players.map fun e => (e.1, elimUpdatePlayer leaderPace threshold e.2)
    let eliminated := active.filterMap fun p =>
      if decide (leaderPace - p.pace ≥ threshold) then
        some ⟨p.id, p.nickname, p.pace, leaderPace - p.pace⟩
      else none
    let survivors := active.filterMap fun p =>
      if decide (leaderPace - p.pace ≥ threshold) then none else some p.id
    ElimOutcome.checked ⟨updated, threshold, leaderPace, eliminated, survivors⟩

structure FinalStanding where
  playerId : Str
  nickname : Str
  pace : Int
  eliminatedRound : Option Int
deriving DecidableEq

/-- The comparator passed to `Array.sort` in `GameManager.endGame`
(lines 452-462). -/
def standingsCmp (winnerId : Option Str) (a b : FinalStanding) : Int :=
  if some a.playerId = winnerId then -1
  else if some b.playerId = winnerId then 1
  else
    match a.eliminatedRound, b.eliminatedRound with
    | none, some _ => -1
    | some _, none => 1
    | some ra, some rb => rb - ra
    | none, none => b.pace - a.pace

/-- Stable insertion step: `a` is placed before the first element that does
not strictly precede it, so elements tied under the comparator keep their
original relative order, as with the stable `Array.sort` of the V8 engine
running the source. -/
def stableInsert (le : α → α → Bool) (a : α) : List α → List α
  | [] => [a]
  | b :: rest =>
    if le b a && !le a b then b :: stableInsert le a rest else a :: b :: rest

/-- Stable sort by a boolean total preorder. -/
def stableSort (le : α → α → Bool) : List α → List α
  | [] => []
  | a :: rest => stableInsert le a (stableSort le rest)

/-- The final standings built by `GameManager.endGame` (lines 444-462): every
eliminated player's `eliminatedRound` field is the room's current round at
the moment the game ends.  `Array.sort` of the engine running the source is
stable, which `stableSort` reproduces. -/
def endGameStandings (players : List (Str × Player)) (winnerId : Option Str)
    (currentRound : Int) : List FinalStanding :=
  let entries := (players.map (·.2)).map fun p =>
    ({ playerId := p.id, nickname := p.nickname, pace := p.pace
       eliminatedRound := if p.isEliminated then some currentRound else none } : FinalStanding)
  stableSort (fun a b => decide (standingsCmp winnerId a b ≤ 0)) entries

/-- The comparator of `endGameStandings`, as a boolean total preorder. -/
def standingsLe (winnerId : Option Str) (a b : FinalStanding) : Bool :=
  decide (standingsCmp winnerId a b ≤ 0)

/-- The player reset performed by `startGame` (lines 75-81). -/
def startGameResetPlayer (p : Player) : Player :=
  { p with pace := 10, isEliminated := false, currentAnswer := none
           hasSubmitted := false, lastRoundResult := none }

/-- One pace-relevant step of a running game: a played round (a track plus
whatever answers were recorded during it) or a sixth-round elimination
check. -/
inductive PaceStep
  | round (track : Track) (answers : List (Str × PlayerAnswer))
  | elimCheck (round : Int)

def applyPaceStep (players : List (Str × Player)) : PaceStep → List (Str × Player)
  | PaceStep.round track answers =>
    endRoundUpdate track
      (players.map fun e => (e.1, { e.2 with currentAnswer := List.lookup e.1 answers }))
  | PaceStep.elimCheck r =>
    match gmCheckEliminations players r with
    | ElimOutcome.endGameNow _ => players
    | ElimOutcome.checked res => res.updatedPlayers

/-! ## Random track fetch (src/server/spotifyService.ts caller contract) -/

/-- Modelled from the spec: one playlist window item as returned by a 1-item
window fetch of the external service; it may be a local file or lack its
track object. -/
structure WindowItem where
  isLocal : Bool
  track : Option Track
deriving DecidableEq

/-- Modelled from the spec: the attempt loop of
`SpotifyService.getRandomTrack`, whose implementation is not under `src/`
(only its caller `GameManager.startNextRound` is).  Each attempt `i` picks
the uniform draw `offs i % total` (the value of
`Math.floor(Math.random() * totalTracks)` with `offs` the randomness
oracle), fetches the 1-item window there and skips local, missing or
already-used tracks. -/
def getRandomTrackAttempts (total : Nat) (window : Nat → Option WindowItem)
    (used : List Str) (offs : Nat → Nat) : List Nat → Option Track
  | [] => none
  | i :: rest =>
    let offset := offs i % total
    match window offset with
    | none => getRandomTrackAttempts total window used offs rest
    | some item =>
      if item.isLocal then getRandomTrackAttempts total window used offs rest
      else
        match item.track with
        | none => getRandomTrackAttempts total window used offs rest
        | some t =>
          if t.id ∈ used then getRandomTrackAttempts total window used offs rest
          else some t

/-- Modelled from the spec: `SpotifyService.getRandomTrack` makes at most 10
attempts and returns `null` when the used set already covers the whole
playlist or when every attempt fails. -/
def getRandomTrack (total : Nat) (window : Nat → Option WindowItem)
    (used : List Str) (offs : Nat → Nat) : Option Track :=
  if used.length = total then none
  else getRandomTrackAttempts total window used offs (List.range 10)

inductive FetchOutcome
  | roundTrack (track : Track) (usedAfter : List Str)
  | endGameNoWinner
deriving DecidableEq

/-- The track-selection logic of `GameManager.startNextRound`
(gameManager.ts lines 141-166): a failed fetch clears the used set and
retries exactly once; a second failure ends the game with no winner; a
success records the chosen track id in the used set. -/
def startNextRoundFetch (total : Nat) (window : Nat → Option WindowItem)
    (used : List Str) (offs1 offs2 : Nat → Nat) : FetchOutcome :=
  match getRandomTrack total window used offs1 with
  | some t => FetchOutcome.roundTrack t (used ++ [t.id])
  | none =>
    match getRandomTrack total window [] offs2 with
    | some t => FetchOutcome.roundTrack t ([] ++ [t.id])
    | none => FetchOutcome.endGameNoWinner

/-! ## Room registry (unnamed part_000, `RoomManager`) -/

structure SerializedRoom where
  code : Str
  hostId : Str
  players : List Player
  gameState : GameState
  hasSpotifyAuth : Bool
  playlist : Option PlaylistInfo
  trackCount : Nat
  settings : RoomSettings
deriving DecidableEq

/-- `RoomManager.serializeRoom` (part_000 lines 283-294). -/
def serializeRoom (room : Room) : SerializedRoom :=
  { code := room.code
    hostId := room.hostId
    players := room.players.map (·.2)
    gameState := room.gameState
    hasSpotifyAuth := room.spotifyAuth.isSome
    playlist := room.playlist
    trackCount := room.tracks.length
    settings := room.settings }

structure RoomManagerState where
  rooms : List (Str × Room)
  playerToRoom : List (Str × Str)
  socketToPlayer : List (Str × Str)
deriving DecidableEq

def initRegistry : RoomManagerState := ⟨[], [], []⟩

def defaultSettings : RoomSettings := ⟨10, 60000, 8000⟩

def initialGameState : GameState :=
  ⟨GameStatus.LOBBY, 0, none, none, none, false, none, none⟩

def newPlayer (pid nickname : Str) (isHost : Bool) (socketId : Str) : Player :=
  ⟨pid, nickname, 10, isHost, false, true, some socketId, none, false, none⟩

/-- `RoomManager.createRoom` (part_000 lines 28-84).  The generated room code
and uuid are oracle parameters; the do-while uniqueness of the code and the
freshness of the uuid are recorded by `regAllowedOrig`. -/
def rmCreateRoom (nickname socketId code pid : Str) (st : RoomManagerState) : RoomManagerState :=
  let host := newPlayer pid nickname true socketId
  let room : Room :=
    ⟨code, pid, [(pid, host)], initialGameState, none, none, [], [], 0, defaultSettings⟩
  { rooms := mapSet code room st.rooms
    playerToRoom := mapSet pid code st.playerToRoom
    socketToPlayer := mapSet socketId pid st.socketToPlayer }

/-- The rejoin scan of `joinRoom` (part_000 lines 100-108): the first player
whose nickname matches case-insensitively. -/
def findRejoin (players : List (Str × Player)) (nickname : Str) : Option (Str × Player) :=
  players.find? (fun e => toLowerStr e.2.nickname == toLowerStr nickname)

/-- `RoomManager.joinRoom` (part_000 lines 89-140).  A failed join (unknown
code, full room, game already started) leaves the registry unchanged. -/
def rmJoinRoom (roomCode nickname socketId pid : Str) (st : RoomManagerState) : RoomManagerState :=
  match List.lookup (toUpperStr roomCode) st.rooms with
  | none => st
  | some room =>
    match findRejoin room.players nickname with
    | some (rpid, rp) =>
      let room' := { room with
        players := mapSet rpid { rp with isConnected := true, socketId := some socketId } room.players }
      { rooms := mapSet (toUpperStr roomCode) room' st.rooms
        playerToRoom := st.playerToRoom
        socketToPlayer := mapSet socketId rpid st.socketToPlayer }
    | none =>
      if room.players.length ≥ room.settings.maxPlayers then st
      else if room.gameState.status ≠ GameStatus.LOBBY then st
      else
        let player := newPlayer pid nickname false socketId
        let room' := { room with players := mapSet pid player room.players }
        { rooms := mapSet (toUpperStr roomCode) room' st.rooms
          playerToRoom := mapSet pid room.code st.playerToRoom
          socketToPlayer := mapSet socketId pid st.socketToPlayer }

/-- `RoomManager.handleDisconnect` (part_000 lines 145-184): mark the bound
player disconnected, clear its connection id, pause a PLAYING game when the
host drops; the player record is never removed. -/
def rmHandleDisconnect (socketId : Str) (st : RoomManagerState) : RoomManagerState :=
  match List.lookup socketId st.socketToPlayer with
  | none => st
  | some pid =>
  match List.lookup pid st.playerToRoom with
  | none => st
  | some roomCode =>
  match List.lookup roomCode st.rooms with
  | none => st
  | some room =>
  match List.lookup pid room.players with
  | none => st
  | some player =>
    let player' := { player with isConnected := false, socketId := none }
    let gs := room.gameState
    let gs' :=
      if player.isHost && gs.status == GameStatus.PLAYING then
        { gs with isPaused := true
                  pauseReason := some "Host disconnected. Waiting for host to reconnect...".toList }
      else gs
    let room' := { room with players := mapSet pid player' room.players, gameState := gs' }
    { rooms := mapSet roomCode room' st.rooms
      playerToRoom := st.playerToRoom
      socketToPlayer := mapDelete socketId st.socketToPlayer }

/-- `RoomManager.removePlayer` (part_000 lines 189-235): remove the player,
delete the room if it becomes empty, otherwise promote the first remaining
player when the leaver was host. -/
def rmRemovePlayer (socketId : Str) (st : RoomManagerState) : RoomManagerState :=
  match List.lookup socketId st.socketToPlayer with
  | none => st
  | some pid =>
  match List.lookup pid st.playerToRoom with
  | none => st
  | some roomCode =>
  match List.lookup roomCode st.rooms with
  | none => st
  | some room =>
  match List.lookup pid room.players with
  | none => st
  | some player =>
    let players' := mapDelete pid room.players
    let ptr := mapDelete pid st.playerToRoom
    let stp := mapDelete socketId st.socketToPlayer
    if players'.length = 0 then
      { rooms := mapDelete roomCode st.rooms, playerToRoom := ptr, socketToPlayer := stp }
    else
      if player.isHost then
        match players' with
        | [] => st
        | (nhId, nh) :: restPlayers =>
          let room' := { room with
            players := (nhId, { nh with isHost := true }) :: restPlayers
            hostId := nh.id }
          { rooms := mapSet roomCode room' st.rooms, playerToRoom := ptr, socketToPlayer := stp }
      else
        let room' := { room with players := players' }
        { rooms := mapSet roomCode room' st.rooms, playerToRoom := ptr, socketToPlayer := stp }

/-- The registry operations of the claim: create, join (including rejoin),
explicit leave, disconnect. -/
inductive RegOp
  | create (nickname socketId code pid : Str)
  | join (roomCode nickname socketId pid : Str)
  | disconnect (socketId : Str)
  | leave (socketId : Str)
deriving DecidableEq

def applyRegOp (st : RoomManagerState) : RegOp → RoomManagerState
  | RegOp.create n s c p => rmCreateRoom n s c p st
  | RegOp.join rc n s p => rmJoinRoom rc n s p st
  | RegOp.disconnect s => rmHandleDisconnect s st
  | RegOp.leave s => rmRemovePlayer s st

def allPlayerIds (st : RoomManagerState) : List Str :=
  st.rooms.flatMap (fun e => e.2.players.map (·.1))

/-- Admissibility of an operation as the source produces it: a `createRoom`
uses a room code that is not yet taken (the do-while loop) and a fresh uuid,
and a `joinRoom` that admits a new player uses a fresh uuid. -/
def regAllowedOrig (st : RoomManagerState) : RegOp → Bool
  | RegOp.create _ _ c p =>
    (List.lookup c st.rooms).isNone && !(decide (p ∈ allPlayerIds st))
  | RegOp.join rc n _ p =>
    (match List.lookup (toUpperStr rc) st.rooms with
     | none => true
     | some room =>
       match findRejoin room.players n with
       | some _ => true
       | none => !(decide (p ∈ allPlayerIds st)))
  | RegOp.disconnect _ => true
  | RegOp.leave _ => true

/-- The amended admissibility: additionally, a rejoin only happens while the
reclaimed player has no bound connection. -/
def regAllowedAmended (st : RoomManagerState) : RegOp → Bool
  | RegOp.join rc n s p =>
    regAllowedOrig st (RegOp.join rc n s p) &&
    (match List.lookup (toUpperStr rc) st.rooms with
     | none => true
     | some room =>
       match findRejoin room.players n with
       | some (_, rp) => rp.socketId == none
       | none => true)
  | op => regAllowedOrig st op

def runRegOps (ops : List RegOp) : RoomManagerState :=
  ops.foldl applyRegOp initRegistry

def regSeqAllowed (ok : RoomManagerState → RegOp → Bool) :
    RoomManagerState → List RegOp → Bool
  | _, [] => true
  | st, op :: rest => ok st op && regSeqAllowed ok (applyRegOp st op) rest

/-- The mutual-consistency property asserted by the claim: every
connection-index entry points at a player whose record holds that same
connection id, every player-index entry points at a room containing that
player, and every non-empty room has exactly one host. -/
def registryConsistent (st : RoomManagerState) : Bool :=
  (st.socketToPlayer.all fun e =>
    st.rooms.any fun re =>
      match List.lookup e.2 re.2.players with
      | some p => p.socketId == some e.1
      | none => false) &&
  (st.playerToRoom.all fun e =>
    match List.lookup e.2 st.rooms with
    | some room => (List.lookup e.1 room.players).isSome
    | none => false) &&
  (st.rooms.all fun re =>
    re.2.players.isEmpty || ((re.2.players.filter (fun pe => pe.2.isHost)).length == 1))

/-! ## Auxiliary definitions for the claims about the fuzzy matcher -/

/-- The claim's reading of the title threshold: selected by the shorter of
the two normalized operands. -/
def claimTitleAccept (guess correct : Str) : Bool :=
  let similarity := calculateSimilarity guess correct
  let ng := normalizeString guess
  let nc := normalizeString correct
  let threshold :=
    if min ng.length nc.length ≤ SHORT_STRING_LENGTH then SHORT_STRING_THRESHOLD
    else SIMILARITY_THRESHOLD
  decide (similarity ≥ threshold)

/-- The specification's per-field acceptance for the title, as amended: the
stricter threshold applies exactly when the normalized guess has length at
most 5, independently of the track name. -/
def specTitleAccept (guess correct : Str) : Bool :=
  decide (calculateSimilarity guess correct ≥
    (if (normalizeString guess).length ≤ 5 then mkRat 17 20 else mkRat 3 4))

/-- The specification's per-artist acceptance: similarity against the
min-length-selected threshold, or containment either way round with a length
ratio of at least one half. -/
def specArtistAccept (guess : Str) (artist : MArtist) : Bool :=
  let ng := normalizeString guess
  let na := normalizeString artist.name
  decide (calculateSimilarity guess artist.name ≥
    (if min ng.length na.length ≤ 5 then mkRat 17 20 else mkRat 3 4)) ||
  ((containsSeq ng na || containsSeq na ng) &&
    decide (((min ng.length na.length : ℚ) / (max ng.length na.length)) ≥ 1 / 2))

/-- `\b w \b` occurrence scanner: does the word `w` (which starts and ends
with word characters) occur in `l` delimited by word boundaries, where
`prevWord` states whether the character just before `l` is a word
character? -/
def hasWordOcc (w : Str) : Bool → Str → Bool
  | _, [] => false
  | prevWord, c :: rest =>
    (!prevWord && w.isPrefixOf (c :: rest) &&
      boundaryAfterOk (List.drop w.length (c :: rest)))
    || hasWordOcc w (isWordChar c) rest

/-- `\b` before an occurrence that follows the prefix `pre`; `pw` is the
word-character status of the character just before the scanned string. -/
def occBoundaryB (pw : Bool) (pre : Str) : Bool :=
  match pre.getLast? with
  | none => !pw
  | some d => !isWordChar d

/-- Occurrence of `w` in `l` with word boundaries on both sides, as an
explicit decomposition; `pw` is the word-character status of the character
just before `l`. -/
def OccursWord (w : Str) (pw : Bool) (l : Str) : Prop :=
  ∃ pre post, l = pre ++ w ++ post ∧
    occBoundaryB pw pre = true ∧ boundaryAfterOk post = true

/-- The head-of-string match used by the word scanners: `w` is a prefix and
the character after it, if any, is not a word character. -/
def headMatchB (w l : Str) : Prop :=
  w.isPrefixOf l = true ∧ boundaryAfterOk (List.drop w.length l) = true

/-- Every character of `w` is a word character. -/
def allWordStr (w : Str) : Bool := w.all isWordChar

/-- The first character of `w` exists and is a word character. -/
def headWordOk (w : Str) : Bool :=
  match w.head? with
  | none => false
  | some d => isWordChar d

/-- The last character of `w` exists and is a word character. -/
def lastWordOk (w : Str) : Bool :=
  match w.getLast? with
  | none => false
  | some d => isWordChar d

/-! ## Concrete fixtures used by witnesses and counterexamples -/

def fixTrackHello : Track :=
  ⟨"t1".toList, "spotify:track:t1".toList, "Hello".toList,
   [⟨"a1".toList, "Adele".toList⟩], "25".toList, none, 295000, none⟩

def fixPlayer (id nickname : Str) (pace : Int) (isHost isEliminated : Bool) : Player :=
  ⟨id, nickname, pace, isHost, isEliminated, true, none, none, false, none⟩

def fixAnswerHello : PlayerAnswer := ⟨"hello".toList, "adele".toList, 0⟩

/-- Three players at the end of round 6 of a game: the leader, a player at
pace 0 and a player at pace 1. -/
def fixC7Players0 : List (Str × Player) :=
  [("pa".toList, fixPlayer "pa".toList "Alice".toList 10 true false),
   ("pb".toList, fixPlayer "pb".toList "Bob".toList 0 false false),
   ("pc".toList, fixPlayer "pc".toList "Cara".toList 1 false false)]

/-- The players after the round-6 elimination check. -/
def fixC7AfterSix : List (Str × Player) :=
  match gmCheckEliminations fixC7Players0 6 with
  | ElimOutcome.checked res => res.updatedPlayers
  | ElimOutcome.endGameNow _ => []

/-- Rounds 7 to 12: the leader answers correctly every round, the player at
pace 1 never submits. -/
def fixC7Steps : List PaceStep :=
  List.replicate 6 (PaceStep.round fixTrackHello [("pa".toList, fixAnswerHello)])

def fixC7AfterTwelveRounds : List (Str × Player) :=
  fixC7Steps.foldl applyPaceStep fixC7AfterSix

/-- The players after the round-12 elimination check. -/
def fixC7Final : List (Str × Player) :=
  match gmCheckEliminations fixC7AfterTwelveRounds 12 with
  | ElimOutcome.checked res => res.updatedPlayers
  | ElimOutcome.endGameNow _ => []

/-- The final standings broadcast when this game ends at round 12 with the
leader as winner. -/
def fixC7Standings : List FinalStanding :=
  endGameStandings fixC7Final (some "pa".toList) 12

/-! # Theorems -/

/-! ## Helper lemmas about the leader pace -/

theorem foldl_max_init_le (l : List Player) (a : Int) :
    a ≤ l.foldl (fun acc q => max acc q.pace) a := by
  induction l generalizing a with
  | nil => exact le_refl a
  | cons p rest ih => exact le_trans (le_max_left _ _) (ih (max a p.pace))

theorem foldl_max_mem_le (l : List Player) (a : Int) (q : Player) (hq : q ∈ l) :
    q.pace ≤ l.foldl (fun acc q => max acc q.pace) a := by
  induction l generalizing a with
  | nil => cases hq
  | cons p rest ih =>
    rcases List.mem_cons.mp hq with h | h
    · subst h
      exact le_trans (le_max_right _ _) (foldl_max_init_le rest _)
    · exact ih _ h

theorem foldl_max_attained (l : List Player) (a : Int) :
    l.foldl (fun acc q => max acc q.pace) a = a ∨
      ∃ q ∈ l, l.foldl (fun acc q => max acc q.pace) a = q.pace := by
  induction l generalizing a with
  | nil => exact Or.inl rfl
  | cons p rest ih =>
    have step : (p :: rest).foldl (fun acc q => max acc q.pace) a
        = rest.foldl (fun acc q => max acc q.pace) (max a p.pace) := rfl
    rcases ih (max a p.pace) with h | ⟨q, hq, h⟩
    · rcases le_total a p.pace with hle | hle
      · exact Or.inr ⟨p, List.mem_cons_self _ _, by rw [step, h, max_eq_right hle]⟩
      · exact Or.inl (by rw [step, h, max_eq_left hle])
    · exact Or.inr ⟨q, List.mem_cons_of_mem _ hq, by rw [step, h]⟩

theorem leaderPaceOf_le (active : List Player) (p : Player) (hp : p ∈ active) :
    p.pace ≤ leaderPaceOf active := by
  cases active with
  | nil => cases hp
  | cons q rest =>
    rcases List.mem_cons.mp hp with h | h
    · subst h
      exact foldl_max_init_le rest _
    · exact foldl_max_mem_le rest _ _ h

theorem leaderPaceOf_attained (active : List Player) (h : active ≠ []) :
    ∃ p ∈ active, p.pace = leaderPaceOf active := by
  cases active with
  | nil => exact absurd rfl h
  | cons q rest =>
    rcases foldl_max_attained rest q.pace with h1 | ⟨p, hp, h1⟩
    · exact ⟨q, List.mem_cons_self _ _, h1.symm⟩
    · exact ⟨p, List.mem_cons_of_mem _ hp, h1.symm⟩

theorem gmCheckEliminations_checked (players : List (Str × Player)) (round : Int)
    (h2 : ¬ ((players.map (·.2)).filter (fun p => !p.isEliminated)).length ≤ 1) :
    gmCheckEliminations players round = ElimOutcome.checked
      ⟨players.map (fun e => (e.1,
          elimUpdatePlayer
            (leaderPaceOf ((players.map (·.2)).filter (fun p => !p.isEliminated)))
            (getEliminationThreshold round) e.2)),
        getEliminationThreshold round,
        leaderPaceOf ((players.map (·.2)).filter (fun p => !p.isEliminated)),
        ((players.map (·.2)).filter (fun p => !p.isEliminated)).filterMap (fun p =>
          if decide (leaderPaceOf ((players.map (·.2)).filter (fun p => !p.isEliminated))
              - p.pace ≥ getEliminationThreshold round) then
            some ⟨p.id, p.nickname, p.pace,
              leaderPaceOf ((players.map (·.2)).filter (fun p => !p.isEliminated)) - p.pace⟩
          else none),
        ((players.map (·.2)).filter (fun p => !p.isEliminated)).filterMap (fun p =>
          if decide (leaderPaceOf ((players.map (·.2)).filter (fun p => !p.isEliminated))
              - p.pace ≥ getEliminationThreshold round) then none
          else some p.id)⟩ := by
  simp only [gmCheckEliminations]
  rw [if_neg h2]

/-- C9: `serializeRoom` never exposes the access or refresh token nor the
used-track-id set: rooms that differ only in the token values of a present
auth, or only in the used-id set, serialize identically (only the boolean
presence of the auth is emitted). -/
theorem C9_serializeRoom_hides_secrets (room : Room) (auth : SpotifyAuth)
    (atk rtk : Str) (used : List Str) :
    serializeRoom { room with
        spotifyAuth := some { auth with accessToken := atk, refreshToken := rtk }
        usedTrackIds := used }
      = serializeRoom { room with spotifyAuth := some auth } := by
  rfl

/-- C1: with at least two non-eliminated players at round `r`, the
elimination check marks a non-eliminated player eliminated exactly when
`leaderPace - pace ≥ max 1 (10 - (r-1) div 6)`, where `leaderPace` is the
maximum pace among non-eliminated players; and `endRound` schedules the
elimination check exactly when `r mod 6 = 0`. -/
theorem C1_elimination_rule (players : List (Str × Player)) (round : Int)
    (h2 : 2 ≤ ((players.map (·.2)).filter (fun p => !p.isEliminated)).length) :
    ∃ res : ElimCheckResult,
      gmCheckEliminations players round = ElimOutcome.checked res ∧
      res.threshold = max 1 (10 - (round - 1).fdiv 6) ∧
      (∀ p ∈ (players.map (·.2)).filter (fun p => !p.isEliminated),
        p.pace ≤ res.leaderPace) ∧
      (∃ p ∈ (players.map (·.2)).filter (fun p => !p.isEliminated),
        p.pace = res.leaderPace) ∧
      res.updatedPlayers
        = players.map (fun e => (e.1, elimUpdatePlayer res.leaderPace res.threshold e.2)) ∧
      (∀ e ∈ players, (e.2 : Player).isEliminated = false →
        ((elimUpdatePlayer res.leaderPace res.threshold e.2).isEliminated = true ↔
          res.leaderPace - (e.2 : Player).pace ≥ res.threshold)) ∧
      (∀ r : Int, endRoundSchedulesElimination r = true ↔ r % 6 = 0) := by
  have hne : ¬ ((players.map (·.2)).filter (fun p => !p.isEliminated)).length ≤ 1 := by
    omega
  refine ⟨_, gmCheckEliminations_checked players round hne, rfl, ?_, ?_, rfl, ?_, ?_⟩
  · intro p hp
    exact leaderPaceOf_le _ _ hp
  · refine leaderPaceOf_attained _ ?_
    intro hnil
    rw [hnil] at hne
    exact hne (by simp)
  · intro e he hel
    by_cases hc : leaderPaceOf ((players.map (·.2)).filter (fun p => !p.isEliminated))
        - (e.2 : Player).pace ≥ getEliminationThreshold round
    · simp [elimUpdatePlayer, hel, hc]
    · simp [elimUpdatePlayer, hel, hc]
  · intro r
    simp [endRoundSchedulesElimination]

/-- Witness for C1 at a concrete two-player room at round 6. -/
theorem C1_elimination_rule_witness :
    (2 ≤ (([("pa".toList, fixPlayer "pa".toList "Alice".toList 10 true false),
            ("pb".toList, fixPlayer "pb".toList "Bob".toList 0 false false)].map
              (fun e => (e.2 : Player))).filter (fun p => !p.isEliminated)).length) ∧
    (∃ res : ElimCheckResult,
      gmCheckEliminations
        [("pa".toList, fixPlayer "pa".toList "Alice".toList 10 true false),
         ("pb".toList, fixPlayer "pb".toList "Bob".toList 0 false false)] 6
        = ElimOutcome.checked res ∧
      res.threshold = max 1 (10 - ((6 : Int) - 1).fdiv 6) ∧
      (∀ p ∈ (([("pa".toList, fixPlayer "pa".toList "Alice".toList 10 true false),
            ("pb".toList, fixPlayer "pb".toList "Bob".toList 0 false false)].map
              (fun e => (e.2 : Player))).filter (fun p => !p.isEliminated)),
        p.pace ≤ res.leaderPace) ∧
      (∃ p ∈ (([("pa".toList, fixPlayer "pa".toList "Alice".toList 10 true false),
            ("pb".toList, fixPlayer "pb".toList "Bob".toList 0 false false)].map
              (fun e => (e.2 : Player))).filter (fun p => !p.isEliminated)),
        p.pace = res.leaderPace) ∧
      res.updatedPlayers
        = [("pa".toList, fixPlayer "pa".toList "Alice".toList 10 true false),
           ("pb".toList, fixPlayer "pb".toList "Bob".toList 0 false false)].map
            (fun e => (e.1, elimUpdatePlayer res.leaderPace res.threshold e.2)) ∧
      (∀ e ∈ [("pa".toList, fixPlayer "pa".toList "Alice".toList 10 true false),
              ("pb".toList, fixPlayer "pb".toList "Bob".toList 0 false false)],
        (e.2 : Player).isEliminated = false →
        ((elimUpdatePlayer res.leaderPace res.threshold e.2).isEliminated = true ↔
          res.leaderPace - (e.2 : Player).pace ≥ res.threshold)) ∧
      (∀ r : Int, endRoundSchedulesElimination r = true ↔ r % 6 = 0)) :=
  ⟨by decide, C1_elimination_rule _ 6 (by decide)⟩

/-- C10: an elimination check with at least two active players never
eliminates everyone: a player at the leader pace has gap 0, and the
threshold is at least 1, so that player always survives. -/
theorem C10_leader_survives (players : List (Str × Player)) (round : Int)
    (h2 : 2 ≤ ((players.map (·.2)).filter (fun p => !p.isEliminated)).length) :
    ∃ res : ElimCheckResult,
      gmCheckEliminations players round = ElimOutcome.checked res ∧
      1 ≤ res.threshold ∧
      res.survivors ≠ [] ∧
      (∃ p ∈ (players.map (·.2)).filter (fun p => !p.isEliminated),
        p.pace = res.leaderPace ∧ p.id ∈ res.survivors) ∧
      (∃ e ∈ res.updatedPlayers, (e.2 : Player).isEliminated = false) := by
  have hne : ¬ ((players.map (·.2)).filter (fun p => !p.isEliminated)).length ≤ 1 := by
    omega
  have hthr : (1 : Int) ≤ getEliminationThreshold round := by
    unfold getEliminationThreshold
    exact le_max_left _ _
  obtain ⟨p, hp, hpl⟩ := leaderPaceOf_attained
    ((players.map (·.2)).filter (fun p => !p.isEliminated))
    (by intro hnil; rw [hnil] at hne; exact hne (by simp))
  have hc : ¬ (leaderPaceOf ((players.map (·.2)).filter (fun p => !p.isEliminated))
      - p.pace ≥ getEliminationThreshold round) := by
    rw [hpl]
    omega
  have hsurv : p.id ∈ ((players.map (·.2)).filter (fun p => !p.isEliminated)).filterMap
      (fun q => if decide (leaderPaceOf ((players.map (·.2)).filter (fun p => !p.isEliminated))
          - q.pace ≥ getEliminationThreshold round) then none else some q.id) :=
    List.mem_filterMap.mpr ⟨p, hp, by simp [hc]⟩
  refine ⟨_, gmCheckEliminations_checked players round hne, hthr, ?_, ?_, ?_⟩
  · exact List.ne_nil_of_mem hsurv
  · exact ⟨p, hp, hpl, hsurv⟩
  · have hpe : p.isEliminated = false := by
      have := List.mem_filter.mp hp
      simpa using this.2
    obtain ⟨e, he, he2⟩ := List.mem_map.mp (List.mem_filter.mp hp).1
    refine ⟨(e.1, elimUpdatePlayer
      (leaderPaceOf ((players.map (·.2)).filter (fun p => !p.isEliminated)))
      (getEliminationThreshold round) e.2), List.mem_map.mpr ⟨e, he, rfl⟩, ?_⟩
    rw [show e.2 = p from he2]
    simp only [elimUpdatePlayer, hpe]
    rw [if_neg]
    · exact hpe
    · simp [hc]

/-- Witness for C10 at a concrete two-player room at round 12. -/
theorem C10_leader_survives_witness :
    (2 ≤ (([("pa".toList, fixPlayer "pa".toList "Alice".toList 10 true false),
            ("pb".toList, fixPlayer "pb".toList "Bob".toList 10 false false)].map
              (fun e => (e.2 : Player))).filter (fun p => !p.isEliminated)).length) ∧
    (∃ res : ElimCheckResult,
      gmCheckEliminations
        [("pa".toList, fixPlayer "pa".toList "Alice".toList 10 true false),
         ("pb".toList, fixPlayer "pb".toList "Bob".toList 10 false false)] 12
        = ElimOutcome.checked res ∧
      1 ≤ res.threshold ∧
      res.survivors ≠ [] ∧
      (∃ p ∈ (([("pa".toList, fixPlayer "pa".toList "Alice".toList 10 true false),
            ("pb".toList, fixPlayer "pb".toList "Bob".toList 10 false false)].map
              (fun e => (e.2 : Player))).filter (fun p => !p.isEliminated)),
        p.pace = res.leaderPace ∧ p.id ∈ res.survivors) ∧
      (∃ e ∈ res.updatedPlayers, (e.2 : Player).isEliminated = false)) :=
  ⟨by decide, C10_leader_survives _ 12 (by decide)⟩

/-! ## Pace bounds through a game -/

theorem clampPace_bounds (x : Int) : 0 ≤ clampPace x ∧ clampPace x ≤ 10 := by
  unfold clampPace
  omega

theorem endRoundUpdatePlayer_pace_bounds (track : Track) (p : Player)
    (h0 : 0 ≤ p.pace) (h10 : p.pace ≤ 10) :
    0 ≤ (endRoundUpdatePlayer track p).pace ∧ (endRoundUpdatePlayer track p).pace ≤ 10 := by
  unfold endRoundUpdatePlayer
  by_cases hel : p.isEliminated
  · simp only [hel, if_true]
    exact ⟨h0, h10⟩
  · simp only [hel, if_false, Bool.false_eq_true]
    exact clampPace_bounds _

theorem elimUpdatePlayer_pace (lp thr : Int) (p : Player) :
    (elimUpdatePlayer lp thr p).pace = p.pace := by
  unfold elimUpdatePlayer
  split <;> rfl

theorem gmCheckEliminations_updated (players : List (Str × Player)) (round : Int)
    (res : ElimCheckResult)
    (h : gmCheckEliminations players round = ElimOutcome.checked res) :
    res.updatedPlayers
      = players.map (fun e => (e.1, elimUpdatePlayer res.leaderPace res.threshold e.2)) := by
  by_cases hle : ((players.map (·.2)).filter (fun p => !p.isEliminated)).length ≤ 1
  · unfold gmCheckEliminations at h
    rw [if_pos hle] at h
    cases h
  · rw [gmCheckEliminations_checked players round hle] at h
    cases h
    rfl

theorem pace_bounds_preserved (steps : List PaceStep) (ps : List (Str × Player))
    (hps : ∀ e ∈ ps, 0 ≤ (e.2 : Player).pace ∧ (e.2 : Player).pace ≤ 10) :
    ∀ e ∈ steps.foldl applyPaceStep ps,
      0 ≤ (e.2 : Player).pace ∧ (e.2 : Player).pace ≤ 10 := by
  induction steps generalizing ps with
  | nil => exact hps
  | cons s rest ih =>
    refine ih _ ?_
    intro e he
    cases s with
    | round track answers =>
      simp only [applyPaceStep, endRoundUpdate, List.map_map, List.mem_map] at he
      obtain ⟨f, hf, rfl⟩ := he
      have hb := hps f hf
      exact endRoundUpdatePlayer_pace_bounds track _ hb.1 hb.2
    | elimCheck r =>
      simp only [applyPaceStep] at he
      rcases hg : gmCheckEliminations ps r with w | res
      · rw [hg] at he
        exact hps e he
      · rw [hg] at he
        have he' : e ∈ res.updatedPlayers := he
        rw [gmCheckEliminations_updated ps r res hg] at he'
        obtain ⟨f, hf, rfl⟩ := List.mem_map.mp he'
        rw [elimUpdatePlayer_pace]
        exact hps f hf

/-- C2: after a round's scoring update each non-eliminated player's pace is
the clamp to [0,10] of the previous pace plus the result's delta (+1 for
BOTH, 0 for ONE, -3 for NONE, a missing submission scoring NONE), and
starting from the startGame reset every player's pace stays within [0,10]
through any sequence of rounds and elimination checks. -/
theorem C2_pace_clamped (track : Track) (p : Player)
    (players : List (Str × Player)) (steps : List PaceStep) (q : Str × Player)
    (helim : p.isEliminated = false)
    (hq : q ∈ steps.foldl applyPaceStep
      (players.map (fun e => (e.1, startGameResetPlayer e.2)))) :
    (getPaceChange RoundResult.BOTH = 1 ∧ getPaceChange RoundResult.ONE = 0 ∧
      getPaceChange RoundResult.NONE = -3) ∧
    (∃ r : RoundResult, (endRoundUpdatePlayer track p).lastRoundResult = some r ∧
      (endRoundUpdatePlayer track p).pace = clampPace (p.pace + getPaceChange r) ∧
      (p.currentAnswer = none → r = RoundResult.NONE)) ∧
    (0 ≤ (endRoundUpdatePlayer track p).pace ∧ (endRoundUpdatePlayer track p).pace ≤ 10) ∧
    (0 ≤ (q.2 : Player).pace ∧ (q.2 : Player).pace ≤ 10) := by
  refine ⟨⟨rfl, rfl, rfl⟩, ?_, ?_, ?_⟩
  · cases hca : p.currentAnswer with
    | none =>
      refine ⟨RoundResult.NONE, ?_, ?_, fun _ => rfl⟩ <;>
        simp [endRoundUpdatePlayer, helim, hca]
    | some ans =>
      refine ⟨(scoreAnswer ans.songTitle ans.artist track.name track.artists).result,
        ?_, ?_, ?_⟩
      · simp [endRoundUpdatePlayer, helim, hca]
      · simp [endRoundUpdatePlayer, helim, hca]
      · intro h
        exact Option.noConfusion h
  · unfold endRoundUpdatePlayer
    simp only [helim, if_false, Bool.false_eq_true]
    exact clampPace_bounds _
  · refine pace_bounds_preserved steps _ ?_ q hq
    intro e he
    obtain ⟨f, hf, rfl⟩ := List.mem_map.mp he
    simp [startGameResetPlayer]

/-- Witness for C2 at a concrete player, track and two-step game. -/
theorem C2_pace_clamped_witness :
    ((fixPlayer "px".toList "X".toList 5 false false).isEliminated = false) ∧
    (("pa".toList,
        (⟨"pa".toList, "Alice".toList, 7, true, false, true, none, none, false,
          some RoundResult.NONE⟩ : Player)) ∈
      ([PaceStep.round fixTrackHello [], PaceStep.elimCheck 6]).foldl applyPaceStep
        (fixC7Players0.map (fun e => (e.1, startGameResetPlayer e.2)))) ∧
    ((getPaceChange RoundResult.BOTH = 1 ∧ getPaceChange RoundResult.ONE = 0 ∧
      getPaceChange RoundResult.NONE = -3) ∧
    (∃ r : RoundResult,
      (endRoundUpdatePlayer fixTrackHello
        (fixPlayer "px".toList "X".toList 5 false false)).lastRoundResult = some r ∧
      (endRoundUpdatePlayer fixTrackHello
        (fixPlayer "px".toList "X".toList 5 false false)).pace
        = clampPace ((fixPlayer "px".toList "X".toList 5 false false).pace + getPaceChange r) ∧
      ((fixPlayer "px".toList "X".toList 5 false false).currentAnswer = none →
        r = RoundResult.NONE)) ∧
    (0 ≤ (endRoundUpdatePlayer fixTrackHello
        (fixPlayer "px".toList "X".toList 5 false false)).pace ∧
      (endRoundUpdatePlayer fixTrackHello
        (fixPlayer "px".toList "X".toList 5 false false)).pace ≤ 10) ∧
    (0 ≤ (("pa".toList,
        (⟨"pa".toList, "Alice".toList, 7, true, false, true, none, none, false,
          some RoundResult.NONE⟩ : Player)).2 : Player).pace ∧
      (("pa".toList,
        (⟨"pa".toList, "Alice".toList, 7, true, false, true, none, none, false,
          some RoundResult.NONE⟩ : Player)).2 : Player).pace ≤ 10)) :=
  ⟨by decide, by decide,
    C2_pace_clamped fixTrackHello (fixPlayer "px".toList "X".toList 5 false false)
      fixC7Players0 [PaceStep.round fixTrackHello [], PaceStep.elimCheck 6] _
      (by decide) (by decide)⟩

/-! ## The random track fetch -/

theorem getRandomTrackAttempts_congr (total : Nat) (window : Nat → Option WindowItem)
    (used : List Str) (offs offs' : Nat → Nat) (idx : List Nat)
    (h : ∀ i ∈ idx, offs i = offs' i) :
    getRandomTrackAttempts total window used offs idx
      = getRandomTrackAttempts total window used offs' idx := by
  induction idx with
  | nil => rfl
  | cons i rest ih =>
    have hi : offs i = offs' i := h i (List.mem_cons_self _ _)
    have hr := ih (fun j hj => h j (List.mem_cons_of_mem _ hj))
    simp only [getRandomTrackAttempts, hi, hr]

theorem getRandomTrackAttempts_sound (total : Nat) (window : Nat → Option WindowItem)
    (used : List Str) (offs : Nat → Nat) (idx : List Nat) (t : Track)
    (h : getRandomTrackAttempts total window used offs idx = some t) :
    ∃ i ∈ idx, ∃ item : WindowItem, window (offs i % total) = some item ∧
      item.isLocal = false ∧ item.track = some t ∧ t.id ∉ used := by
  induction idx with
  | nil => exact Option.noConfusion h
  | cons i rest ih =>
    simp only [getRandomTrackAttempts] at h
    rcases hw : window (offs i % total) with _ | item
    · simp only [hw] at h
      obtain ⟨j, hj, hres⟩ := ih h
      exact ⟨j, List.mem_cons_of_mem _ hj, hres⟩
    · simp only [hw] at h
      by_cases hl : item.isLocal
      · rw [if_pos hl] at h
        obtain ⟨j, hj, hres⟩ := ih h
        exact ⟨j, List.mem_cons_of_mem _ hj, hres⟩
      · rw [if_neg hl] at h
        rcases ht : item.track with _ | t'
        · simp only [ht] at h
          obtain ⟨j, hj, hres⟩ := ih h
          exact ⟨j, List.mem_cons_of_mem _ hj, hres⟩
        · simp only [ht] at h
          by_cases hu : t'.id ∈ used
          · rw [if_pos hu] at h
            obtain ⟨j, hj, hres⟩ := ih h
            exact ⟨j, List.mem_cons_of_mem _ hj, hres⟩
          · rw [if_neg hu] at h
            obtain rfl : t' = t := Option.some.inj h
            exact ⟨i, List.mem_cons_self _ _, item, hw,
              Bool.not_eq_true _ ▸ eq_false_of_ne_true (by simpa using hl), ht, hu⟩

/-- C6: the random track fetch makes at most 10 attempts (its result depends
only on the first 10 random draws), each attempt reads a window at an offset
below the total (when the playlist is non-empty), a returned track is
non-local, present and unused, a used set covering the whole playlist yields
`none`, and on `none` the engine clears the used set and retries exactly once
before ending the game with no winner. -/
theorem C6_random_track_fetch (total : Nat) (window : Nat → Option WindowItem)
    (used : List Str) (offs1 offs2 offs1' : Nat → Nat)
    (hoffs : ∀ i < 10, offs1 i = offs1' i) :
    getRandomTrack total window used offs1 = getRandomTrack total window used offs1' ∧
    (∀ t, getRandomTrack total window used offs1 = some t →
      ∃ i < 10, ∃ item : WindowItem, window (offs1 i % total) = some item ∧
        item.isLocal = false ∧ item.track = some t ∧ t.id ∉ used ∧
        (0 < total → offs1 i % total < total)) ∧
    (used.length = total → getRandomTrack total window used offs1 = none) ∧
    (startNextRoundFetch total window used offs1 offs2 = FetchOutcome.endGameNoWinner ↔
      getRandomTrack total window used offs1 = none ∧
        getRandomTrack total window [] offs2 = none) ∧
    (∀ t u, startNextRoundFetch total window used offs1 offs2 = FetchOutcome.roundTrack t u →
      (getRandomTrack total window used offs1 = some t ∧ u = used ++ [t.id]) ∨
      (getRandomTrack total window used offs1 = none ∧
        getRandomTrack total window [] offs2 = some t ∧ u = [t.id])) := by
  refine ⟨?_, ?_, ?_, ?_, ?_⟩
  · unfold getRandomTrack
    by_cases hu : used.length = total
    · rw [if_pos hu, if_pos hu]
    · rw [if_neg hu, if_neg hu]
      refine getRandomTrackAttempts_congr total window used offs1 offs1' _ ?_
      intro i hi
      exact hoffs i (by simpa using hi)
  · intro t ht
    unfold getRandomTrack at ht
    by_cases hu : used.length = total
    · rw [if_pos hu] at ht
      exact Option.noConfusion ht
    · rw [if_neg hu] at ht
      obtain ⟨i, hi, item, hres⟩ := getRandomTrackAttempts_sound total window used offs1 _ t ht
      exact ⟨i, by simpa using hi, item, hres.1, hres.2.1, hres.2.2.1, hres.2.2.2,
        fun h0 => Nat.mod_lt _ h0⟩
  · intro hu
    unfold getRandomTrack
    rw [if_pos hu]
  · unfold startNextRoundFetch
    rcases h1 : getRandomTrack total window used offs1 with _ | t1
    · rcases h2 : getRandomTrack total window [] offs2 with _ | t2
      · simp
      · simp
    · simp
  · intro t u hru
    unfold startNextRoundFetch at hru
    rcases h1 : getRandomTrack total window used offs1 with _ | t1
    · simp only [h1] at hru
      rcases h2 : getRandomTrack total window [] offs2 with _ | t2
      · simp only [h2] at hru
        exact FetchOutcome.noConfusion hru
      · simp only [h2, List.nil_append] at hru
        cases hru
        exact Or.inr ⟨rfl, rfl, rfl⟩
    · simp only [h1] at hru
      cases hru
      exact Or.inl ⟨rfl, rfl⟩

/-- Witness for C6 at a concrete two-track playlist. -/
theorem C6_random_track_fetch_witness :
    (∀ i < 10, (fun _ : Nat => 0) i = (fun _ : Nat => 0) i) ∧
    (getRandomTrack 2 (fun n => if n = 0 then some ⟨false, some fixTrackHello⟩ else none)
        [] (fun _ => 0)
      = getRandomTrack 2 (fun n => if n = 0 then some ⟨false, some fixTrackHello⟩ else none)
        [] (fun _ => 0) ∧
    (∀ t, getRandomTrack 2 (fun n => if n = 0 then some ⟨false, some fixTrackHello⟩ else none)
        [] (fun _ => 0) = some t →
      ∃ i < 10, ∃ item : WindowItem,
        (fun n => if n = 0 then some (⟨false, some fixTrackHello⟩ : WindowItem) else none)
          ((fun _ : Nat => 0) i % 2) = some item ∧
        item.isLocal = false ∧ item.track = some t ∧ t.id ∉ ([] : List Str) ∧
        (0 < 2 → (fun _ : Nat => 0) i % 2 < 2)) ∧
    (([] : List Str).length = 2 →
      getRandomTrack 2 (fun n => if n = 0 then some ⟨false, some fixTrackHello⟩ else none)
        [] (fun _ => 0) = none) ∧
    (startNextRoundFetch 2 (fun n => if n = 0 then some ⟨false, some fixTrackHello⟩ else none)
        [] (fun _ => 0) (fun _ => 0) = FetchOutcome.endGameNoWinner ↔
      getRandomTrack 2 (fun n => if n = 0 then some ⟨false, some fixTrackHello⟩ else none)
        [] (fun _ => 0) = none ∧
      getRandomTrack 2 (fun n => if n = 0 then some ⟨false, some fixTrackHello⟩ else none)
        [] (fun _ => 0) = none) ∧
    (∀ t u, startNextRoundFetch 2
        (fun n => if n = 0 then some ⟨false, some fixTrackHello⟩ else none)
        [] (fun _ => 0) (fun _ => 0) = FetchOutcome.roundTrack t u →
      (getRandomTrack 2 (fun n => if n = 0 then some ⟨false, some fixTrackHello⟩ else none)
        [] (fun _ => 0) = some t ∧ u = [] ++ [t.id]) ∨
      (getRandomTrack 2 (fun n => if n = 0 then some ⟨false, some fixTrackHello⟩ else none)
        [] (fun _ => 0) = none ∧
       getRandomTrack 2 (fun n => if n = 0 then some ⟨false, some fixTrackHello⟩ else none)
        [] (fun _ => 0) = some t ∧ u = [t.id]))) :=
  ⟨fun _ _ => rfl,
    C6_random_track_fetch 2 (fun n => if n = 0 then some ⟨false, some fixTrackHello⟩ else none)
      [] (fun _ => 0) (fun _ => 0) (fun _ => 0) (fun _ _ => rfl)⟩

/-! ## Properties of the Dice coefficient and of the similarity -/

theorem coe_eraseFirst (x : Char × Char) (ys : List (Char × Char)) :
    ((eraseFirst x ys : List (Char × Char)) : Multiset (Char × Char))
      = ((ys : Multiset (Char × Char)).erase x) := by
  induction ys with
  | nil => rfl
  | cons y ys ih =>
    by_cases hyx : y = x
    · subst hyx
      rw [eraseFirst, if_pos rfl, ← Multiset.cons_coe, Multiset.erase_cons_head]
    · rw [eraseFirst, if_neg hyx, ← Multiset.cons_coe, ← Multiset.cons_coe,
        Multiset.erase_cons_tail _ hyx, ih]

theorem interCount_eq_card_inter (xs ys : List (Char × Char)) :
    interCount xs ys
      = Multiset.card ((xs : Multiset (Char × Char)) ∩ (ys : Multiset (Char × Char))) := by
  induction xs generalizing ys with
  | nil => simp [interCount]
  | cons x xs ih =>
    rw [← Multiset.cons_coe]
    by_cases hx : x ∈ ys
    · rw [interCount, if_pos hx, ih (eraseFirst x ys),
        Multiset.cons_inter_of_pos _ (Multiset.mem_coe.mpr hx), Multiset.card_cons,
        coe_eraseFirst]
    · rw [interCount, if_neg hx, ih ys,
        Multiset.cons_inter_of_neg _ (fun hmem => hx (Multiset.mem_coe.mp hmem))]

theorem interCount_comm (xs ys : List (Char × Char)) :
    interCount xs ys = interCount ys xs := by
  rw [interCount_eq_card_inter, interCount_eq_card_inter, Multiset.inter_comm]

theorem interCount_le_left (xs ys : List (Char × Char)) :
    interCount xs ys ≤ xs.length := by
  rw [interCount_eq_card_inter]
  calc Multiset.card ((xs : Multiset (Char × Char)) ∩ ys)
      ≤ Multiset.card (xs : Multiset (Char × Char)) :=
        Multiset.card_le_card (Multiset.inter_le_left _ _)
    _ = xs.length := Multiset.coe_card xs

theorem interCount_le_right (xs ys : List (Char × Char)) :
    interCount xs ys ≤ ys.length := by
  rw [interCount_comm]
  exact interCount_le_left ys xs

theorem bigramsOf_length (l : List Char) : (bigramsOf l).length = l.length - 1 := by
  induction l with
  | nil => rfl
  | cons a rest ih =>
    cases rest with
    | nil => rfl
    | cons b rest2 =>
      have : bigramsOf (a :: b :: rest2) = (a, b) :: bigramsOf (b :: rest2) := rfl
      rw [this]
      simp only [List.length_cons] at *
      omega

theorem diceCoefficient_comm (a b : List Char) :
    diceCoefficient a b = diceCoefficient b a := by
  unfold diceCoefficient
  rcases eq_or_ne a b with heq | hne
  · subst heq
    rfl
  · rw [if_neg hne, if_neg (show ¬ b = a from fun h => hne h.symm), Bool.or_comm,
      interCount_comm, add_comm]

theorem diceCoefficient_nonneg (a b : List Char) : 0 ≤ diceCoefficient a b := by
  unfold diceCoefficient
  split
  · norm_num
  · split
    · norm_num
    · apply div_nonneg
      · positivity
      · rename_i hlen
        rw [Bool.or_eq_true, not_or] at hlen
        have ha : 2 ≤ a.length := by
          have := hlen.1
          simp only [decide_eq_true_eq] at this
          omega
        have hb : 2 ≤ b.length := by
          have := hlen.2
          simp only [decide_eq_true_eq] at this
          omega
        have ha' : (2 : ℚ) ≤ (a.length : ℚ) := by exact_mod_cast ha
        have hb' : (2 : ℚ) ≤ (b.length : ℚ) := by exact_mod_cast hb
        linarith

theorem diceCoefficient_le_one (a b : List Char) : diceCoefficient a b ≤ 1 := by
  unfold diceCoefficient
  split
  · norm_num
  · split
    · norm_num
    · rename_i hlen
      rw [Bool.or_eq_true, not_or] at hlen
      have ha : 2 ≤ a.length := by
        have := hlen.1
        simp only [decide_eq_true_eq] at this
        omega
      have hb : 2 ≤ b.length := by
        have := hlen.2
        simp only [decide_eq_true_eq] at this
        omega
      have hia : interCount (bigramsOf a) (bigramsOf b) ≤ a.length - 1 := by
        have := interCount_le_left (bigramsOf a) (bigramsOf b)
        rwa [bigramsOf_length] at this
      have hib : interCount (bigramsOf a) (bigramsOf b) ≤ b.length - 1 := by
        have := interCount_le_right (bigramsOf a) (bigramsOf b)
        rwa [bigramsOf_length] at this
      have hden : (0 : ℚ) < ((a.length : ℚ) - 1) + ((b.length : ℚ) - 1) := by
        have ha' : (2 : ℚ) ≤ (a.length : ℚ) := by exact_mod_cast ha
        have hb' : (2 : ℚ) ≤ (b.length : ℚ) := by exact_mod_cast hb
        linarith
      rw [div_le_one hden]
      have hsum : 2 * interCount (bigramsOf a) (bigramsOf b) ≤ (a.length - 1) + (b.length - 1) := by
        omega
      have hcast : ((2 * interCount (bigramsOf a) (bigramsOf b) : Nat) : ℚ)
          ≤ (((a.length - 1) + (b.length - 1) : Nat) : ℚ) := by exact_mod_cast hsum
      calc (2 : ℚ) * (interCount (bigramsOf a) (bigramsOf b) : ℚ)
          = ((2 * interCount (bigramsOf a) (bigramsOf b) : Nat) : ℚ) := by push_cast; ring
        _ ≤ (((a.length - 1) + (b.length - 1) : Nat) : ℚ) := hcast
        _ = ((a.length : ℚ) - 1) + ((b.length : ℚ) - 1) := by
            have ha1 : (1 : Nat) ≤ a.length := by omega
            have hb1 : (1 : Nat) ≤ b.length := by omega
            push_cast [ha1, hb1]
            ring

theorem calculateSimilarity_comm (s1 s2 : Str) :
    calculateSimilarity s1 s2 = calculateSimilarity s2 s1 := by
  simp only [calculateSimilarity]
  rcases eq_or_ne (normalizeString s1) (normalizeString s2) with heq | hne
  · rw [if_pos heq, if_pos heq.symm]
  · rw [if_neg hne,
      if_neg (show ¬ normalizeString s2 = normalizeString s1 from fun h => hne h.symm),
      Bool.or_comm, diceCoefficient_comm]

theorem calculateSimilarity_nonneg (s1 s2 : Str) : 0 ≤ calculateSimilarity s1 s2 := by
  simp only [calculateSimilarity]
  split
  · norm_num
  · split
    · norm_num
    · exact diceCoefficient_nonneg _ _

theorem calculateSimilarity_le_one (s1 s2 : Str) : calculateSimilarity s1 s2 ≤ 1 := by
  simp only [calculateSimilarity]
  split
  · norm_num
  · split
    · norm_num
    · exact diceCoefficient_le_one _ _

/-- C4 (amended): the similarity is symmetric, lies in `[0,1]`, equals 1
whenever the two normalized operands are equal — including the case where
both are empty, since the equality branch precedes the emptiness guard — and
equals 0 when exactly one normalized operand is empty. -/
theorem C4_similarity_props (s1 s2 s3 s4 s5 s6 s7 : Str)
    (heq : normalizeString s3 = normalizeString s4)
    (h5 : normalizeString s5 = []) (h6 : normalizeString s6 ≠ [])
    (h7 : normalizeString s7 = []) :
    calculateSimilarity s1 s2 = calculateSimilarity s2 s1 ∧
    0 ≤ calculateSimilarity s1 s2 ∧ calculateSimilarity s1 s2 ≤ 1 ∧
    calculateSimilarity s3 s4 = 1 ∧
    calculateSimilarity s5 s6 = 0 ∧ calculateSimilarity s6 s5 = 0 ∧
    calculateSimilarity s5 s7 = 1 := by
  refine ⟨calculateSimilarity_comm s1 s2, calculateSimilarity_nonneg s1 s2,
    calculateSimilarity_le_one s1 s2, ?_, ?_, ?_, ?_⟩
  · simp only [calculateSimilarity]
    rw [if_pos heq]
  · simp only [calculateSimilarity]
    rw [if_neg (show ¬ normalizeString s5 = normalizeString s6 from
        fun h => h6 (h.symm.trans h5)), if_pos]
    simp [h5]
  · simp only [calculateSimilarity]
    rw [if_neg (show ¬ normalizeString s6 = normalizeString s5 from
        fun h => h6 (h.trans h5)), if_pos]
    simp [h5]
  · simp only [calculateSimilarity]
    rw [if_pos (h5.trans h7.symm)]

/-- Witness for C4 at concrete strings. -/
theorem C4_similarity_props_witness :
    (normalizeString "Hello!".toList = normalizeString "hello".toList ∧
     normalizeString "".toList = [] ∧ normalizeString "q".toList ≠ [] ∧
     normalizeString "...".toList = []) ∧
    (calculateSimilarity "aX".toList "b".toList
        = calculateSimilarity "b".toList "aX".toList ∧
    0 ≤ calculateSimilarity "aX".toList "b".toList ∧
    calculateSimilarity "aX".toList "b".toList ≤ 1 ∧
    calculateSimilarity "Hello!".toList "hello".toList = 1 ∧
    calculateSimilarity "".toList "q".toList = 0 ∧
    calculateSimilarity "q".toList "".toList = 0 ∧
    calculateSimilarity "".toList "...".toList = 1) :=
  ⟨⟨by decide, by decide, by decide, by decide⟩,
    C4_similarity_props "aX".toList "b".toList "Hello!".toList "hello".toList
      "".toList "q".toList "...".toList (by decide) (by decide) (by decide) (by decide)⟩

/-- C4 counterexample: with both normalized operands empty the similarity is
1, not 0 as the claim requires for the case where either operand is empty. -/
theorem C4_counterexample :
    normalizeString "".toList = [] ∧
    calculateSimilarity "".toList "".toList = 1 ∧
    ¬ calculateSimilarity "".toList "".toList = 0 := by
  refine ⟨by decide, by decide, by decide⟩

/-! ## Per-field acceptance thresholds -/

/-- C5 counterexample: the guess "abcdexy" (normalized length 7) is accepted
against the track name "abcde" (normalized length 5) although the similarity
4/5 is below 0.85: `matchSongTitle` chose the 0.75 threshold from the guess
alone, while the claim (shorter operand at most 5 characters) demands
0.85. -/
theorem C5_counterexample :
    matchSongTitle "abcdexy".toList "abcde".toList = true ∧
    min (normalizeString "abcdexy".toList).length
      (normalizeString "abcde".toList).length ≤ 5 ∧
    calculateSimilarity "abcdexy".toList "abcde".toList < 17 / 20 ∧
    claimTitleAccept "abcdexy".toList "abcde".toList = false := by
  have h1 : normalizeString "abcdexy".toList = "abcdexy".toList := by decide
  have h2 : normalizeString "abcde".toList = "abcde".toList := by decide
  have h3 : interCount (bigramsOf "abcdexy".toList) (bigramsOf "abcde".toList) = 4 := by
    decide
  have hne : ("abcdexy".toList : List Char) ≠ "abcde".toList := by decide
  have hl1 : ("abcdexy".toList : List Char).length = 7 := by decide
  have hl2 : ("abcde".toList : List Char).length = 5 := by decide
  have hsim : calculateSimilarity "abcdexy".toList "abcde".toList = 4 / 5 := by
    simp only [calculateSimilarity, h1, h2]
    rw [if_neg hne, if_neg (by decide)]
    simp only [diceCoefficient]
    rw [if_neg hne, if_neg (by decide), h3, hl1, hl2]
    norm_num
  refine ⟨?_, ?_, ?_, ?_⟩
  · simp only [matchSongTitle, hsim, h1, hl1, SHORT_STRING_LENGTH,
      SHORT_STRING_THRESHOLD, SIMILARITY_THRESHOLD]
    rw [if_neg (by norm_num)]
    simp only [decide_eq_true_eq, ge_iff_le, Rat.mkRat_eq_div]
    norm_num
  · rw [h1, h2, hl1, hl2]
    norm_num
  · rw [hsim]
    norm_num
  · simp only [claimTitleAccept, hsim, h1, h2, hl1, hl2, SHORT_STRING_LENGTH,
      SHORT_STRING_THRESHOLD, SIMILARITY_THRESHOLD]
    rw [if_pos (by norm_num)]
    simp only [decide_eq_false_iff_not, ge_iff_le, Rat.mkRat_eq_div, not_le]
    norm_num

/-- C5 (amended): title acceptance applies the 0.85 threshold exactly when
the normalized guess alone has length at most 5 (the track name plays no
part in the threshold choice), while artist acceptance applies it when the
shorter of the two normalized operands has length at most 5. -/
theorem C5_thresholds (guess correct : Str) (artists : List MArtist) :
    matchSongTitle guess correct = specTitleAccept guess correct ∧
    matchArtist guess artists
      = (!(normalizeString guess).isEmpty && artists.any (specArtistAccept guess)) := by
  constructor
  · rfl
  · by_cases hg : normalizeString guess = []
    · simp [matchArtist, hg]
    · simp only [matchArtist, if_neg hg]
      have : (normalizeString guess).isEmpty = false := by
        simpa [List.isEmpty_iff] using hg
      rw [this]
      simp only [Bool.not_false, Bool.true_and]
      rfl

/-! ## Final standings (stable sort and comparator) -/

theorem stableInsert_perm (le : α → α → Bool) (a : α) (l : List α) :
    List.Perm (stableInsert le a l) (a :: l) := by
  induction l with
  | nil => exact List.Perm.refl _
  | cons b rest ih =>
    unfold stableInsert
    by_cases hc : (le b a && !le a b) = true
    · rw [if_pos hc]
      exact ((ih.cons b).trans (List.Perm.swap a b rest))
    · rw [if_neg hc]

theorem stableSort_perm (le : α → α → Bool) (l : List α) :
    List.Perm (stableSort le l) l := by
  induction l with
  | nil => exact List.Perm.refl _
  | cons a rest ih =>
    exact (stableInsert_perm le a (stableSort le rest)).trans (ih.cons a)

theorem stableInsert_sorted (le : α → α → Bool)
    (htrans : ∀ a b c, le a b = true → le b c = true → le a c = true)
    (htot : ∀ a b, (le a b || le b a) = true)
    (a : α) (l : List α) (hl : l.Pairwise (fun x y => le x y = true)) :
    (stableInsert le a l).Pairwise (fun x y => le x y = true) := by
  induction l with
  | nil => simp [stableInsert]
  | cons b rest ih =>
    rcases List.pairwise_cons.mp hl with ⟨hb, hrest⟩
    unfold stableInsert
    by_cases hc : (le b a && !le a b) = true
    · rw [if_pos hc]
      have hba : le b a = true := by
        have h := hc
        simp only [Bool.and_eq_true] at h
        exact h.1
      refine List.pairwise_cons.mpr ⟨?_, ih hrest⟩
      intro y hy
      have hy' := (stableInsert_perm le a rest).mem_iff.mp hy
      rcases List.mem_cons.mp hy' with hya | hyr
      · rw [hya]; exact hba
      · exact hb y hyr
    · rw [if_neg hc]
      have hab : le a b = true := by
        have h := htot a b
        simp only [Bool.or_eq_true] at h
        rcases h with h | h
        · exact h
        · by_contra hno
          exact hc (by simp [h, eq_false_of_ne_true hno])
      refine List.pairwise_cons.mpr ⟨?_, hl⟩
      intro y hy
      rcases List.mem_cons.mp hy with hyb | hyr
      · rw [hyb]; exact hab
      · exact htrans a b y hab (hb y hyr)

theorem stableSort_sorted (le : α → α → Bool)
    (htrans : ∀ a b c, le a b = true → le b c = true → le a c = true)
    (htot : ∀ a b, (le a b || le b a) = true) (l : List α) :
    (stableSort le l).Pairwise (fun x y => le x y = true) := by
  induction l with
  | nil => exact List.Pairwise.nil
  | cons a rest ih => exact stableInsert_sorted le htrans htot a _ ih


theorem standingsLe_trans (w : Option Str) (a b c : FinalStanding)
    (hab : standingsLe w a b = true) (hbc : standingsLe w b c = true) :
    standingsLe w a c = true := by
  simp only [standingsLe, decide_eq_true_eq] at hab hbc ⊢
  unfold standingsCmp at hab hbc ⊢
  by_cases hWa : some a.playerId = w
  · rw [if_pos hWa]
    omega
  · rw [if_neg hWa] at hab ⊢
    by_cases hWb : some b.playerId = w
    · rw [if_pos hWb] at hab
      omega
    · rw [if_neg hWb] at hab hbc
      by_cases hWc : some c.playerId = w
      · rw [if_pos hWc] at hbc
        omega
      · rw [if_neg hWc] at hbc ⊢
        rcases ha : a.eliminatedRound with _ | ra <;>
          rcases hb : b.eliminatedRound with _ | rb <;>
          rcases hc : c.eliminatedRound with _ | rc <;>
          simp only [ha, hb, hc] at hab hbc ⊢ <;> omega

theorem standingsLe_total (w : Option Str) (a b : FinalStanding) :
    (standingsLe w a b || standingsLe w b a) = true := by
  rw [Bool.or_eq_true]
  simp only [standingsLe, decide_eq_true_eq]
  unfold standingsCmp
  by_cases hWa : some a.playerId = w
  · left; rw [if_pos hWa]; omega
  · by_cases hWb : some b.playerId = w
    · right; rw [if_pos hWb]; omega
    · rw [if_neg hWa, if_neg hWb, if_neg hWb, if_neg hWa]
      rcases ha : a.eliminatedRound with _ | ra <;>
        rcases hb : b.eliminatedRound with _ | rb <;>
        simp only [] <;> omega

set_option maxRecDepth 100000 in
/-- C7 counterexample: one player is eliminated by the round-6 check, a
second only by the round-12 check, yet both are recorded with
`eliminatedRound = 12` in the final standings and the standings keep the
earlier-eliminated player first (the recorded rounds tie, so the claimed
later-round-first and pace orders never apply). -/
theorem C7_counterexample :
    (List.lookup "pb".toList fixC7Players0).map Player.isEliminated = some false ∧
    (List.lookup "pb".toList fixC7AfterSix).map Player.isEliminated = some true ∧
    (List.lookup "pc".toList fixC7AfterTwelveRounds).map Player.isEliminated = some false ∧
    (List.lookup "pc".toList fixC7Final).map Player.isEliminated = some true ∧
    fixC7Standings =
      [⟨"pa".toList, "Alice".toList, 10, none⟩,
       ⟨"pb".toList, "Bob".toList, 0, some 12⟩,
       ⟨"pc".toList, "Cara".toList, 0, some 12⟩] ∧
    ¬ fixC7Standings.map FinalStanding.eliminatedRound = [none, some 6, some 12] :=
  ⟨by decide, by decide, by decide, by decide, by decide, by decide⟩

/-- C7 (amended): the standings broadcast by `gameOver` are a permutation of
the players in which every eliminated player carries `eliminatedRound`
equal to the round at which the game ended (the actual elimination round is
not tracked); the list is sorted by: winner first, then non-eliminated
before eliminated, non-eliminated ordered by pace descending and eliminated
by recorded round descending — and since all recorded rounds coincide, any
two non-winner eliminated entries compare as ties, so pace never orders
them and the stable sort keeps their insertion order. -/
theorem C7_final_standings (players : List (Str × Player)) (winnerId : Option Str)
    (currentRound : Int) :
    List.Perm (endGameStandings players winnerId currentRound)
      ((players.map (·.2)).map (fun p =>
        ({ playerId := p.id, nickname := p.nickname, pace := p.pace
           eliminatedRound := if p.isEliminated then some currentRound else none }
          : FinalStanding))) ∧
    (∀ s ∈ endGameStandings players winnerId currentRound,
      s.eliminatedRound = none ∨ s.eliminatedRound = some currentRound) ∧
    (endGameStandings players winnerId currentRound).Pairwise
      (fun x y => standingsLe winnerId x y = true) ∧
    (∀ a b : FinalStanding, standingsLe winnerId a b = true ↔
      (some a.playerId = winnerId ∨
        (some b.playerId ≠ winnerId ∧
          ((a.eliminatedRound = none ∧ b.eliminatedRound ≠ none) ∨
           (∃ ra rb, a.eliminatedRound = some ra ∧ b.eliminatedRound = some rb ∧ rb ≤ ra) ∨
           (a.eliminatedRound = none ∧ b.eliminatedRound = none ∧ b.pace ≤ a.pace))))) ∧
    (∀ a b : FinalStanding, some a.playerId ≠ winnerId → some b.playerId ≠ winnerId →
      a.eliminatedRound = some currentRound → b.eliminatedRound = some currentRound →
      standingsCmp winnerId a b = 0) := by
  refine ⟨stableSort_perm _ _, ?_, ?_, ?_, ?_⟩
  · intro s hs
    have hmem := (stableSort_perm (standingsLe winnerId) _).mem_iff.mp hs
    obtain ⟨p, hp, rfl⟩ := List.mem_map.mp hmem
    by_cases he : p.isEliminated <;> simp [he]
  · exact stableSort_sorted _ (standingsLe_trans winnerId) (standingsLe_total winnerId) _
  · intro a b
    simp only [standingsLe, decide_eq_true_eq]
    unfold standingsCmp
    by_cases hWa : some a.playerId = winnerId
    · rw [if_pos hWa]
      constructor
      · intro _; exact Or.inl hWa
      · intro _; omega
    · rw [if_neg hWa]
      by_cases hWb : some b.playerId = winnerId
      · rw [if_pos hWb]
        constructor
        · intro h; omega
        · intro h
          rcases h with h | ⟨hne, _⟩
          · exact absurd h hWa
          · exact absurd hWb hne
      · rw [if_neg hWb]
        rcases ha : a.eliminatedRound with _ | ra <;> rcases hb : b.eliminatedRound with _ | rb
        · constructor
          · intro h
            simp only [] at h
            exact Or.inr ⟨hWb, Or.inr (Or.inr ⟨rfl, rfl, by omega⟩)⟩
          · intro h
            simp only []
            rcases h with h | ⟨_, h | h | h⟩
            · exact absurd h hWa
            · exact absurd rfl h.2
            · obtain ⟨ra, rb, hra, _, _⟩ := h
              exact Option.noConfusion hra
            · omega
        · constructor
          · intro _
            exact Or.inr ⟨hWb, Or.inl ⟨rfl, by simp⟩⟩
          · intro _
            simp only []
            omega
        · constructor
          · intro h
            simp only [] at h
            exact absurd h (by norm_num)
          · intro h
            rcases h with h | ⟨_, h | h | h⟩
            · exact absurd h hWa
            · exact Option.noConfusion h.1
            · obtain ⟨ra', rb', hra, hrb, _⟩ := h
              exact Option.noConfusion hrb
            · exact Option.noConfusion h.1
        · constructor
          · intro h
            simp only [] at h
            exact Or.inr ⟨hWb, Or.inr (Or.inl ⟨ra, rb, rfl, rfl, by omega⟩)⟩
          · intro h
            simp only []
            rcases h with h | ⟨_, h | h | h⟩
            · exact absurd h hWa
            · exact Option.noConfusion h.1
            · obtain ⟨ra', rb', hra, hrb, hle⟩ := h
              obtain rfl : ra = ra' := Option.some.inj hra
              obtain rfl : rb = rb' := Option.some.inj hrb
              omega
            · exact Option.noConfusion h.1
  · intro a b hWa hWb hea heb
    unfold standingsCmp
    rw [if_neg hWa, if_neg hWb, hea, heb]
    simp only []
    omega

/-- Witness for C7 at the concrete end-of-game state of the counterexample
trace. -/
theorem C7_final_standings_witness :
    List.Perm (endGameStandings fixC7Final (some "pa".toList) 12)
      ((fixC7Final.map (·.2)).map (fun p =>
        ({ playerId := p.id, nickname := p.nickname, pace := p.pace
           eliminatedRound := if p.isEliminated then some (12 : Int) else none }
          : FinalStanding))) ∧
    (∀ s ∈ endGameStandings fixC7Final (some "pa".toList) 12,
      s.eliminatedRound = none ∨ s.eliminatedRound = some 12) ∧
    (endGameStandings fixC7Final (some "pa".toList) 12).Pairwise
      (fun x y => standingsLe (some "pa".toList) x y = true) ∧
    (∀ a b : FinalStanding, standingsLe (some "pa".toList) a b = true ↔
      (some a.playerId = some "pa".toList ∨
        (some b.playerId ≠ some "pa".toList ∧
          ((a.eliminatedRound = none ∧ b.eliminatedRound ≠ none) ∨
           (∃ ra rb, a.eliminatedRound = some ra ∧ b.eliminatedRound = some rb ∧ rb ≤ ra) ∨
           (a.eliminatedRound = none ∧ b.eliminatedRound = none ∧ b.pace ≤ a.pace))))) ∧
    (∀ a b : FinalStanding, some a.playerId ≠ some "pa".toList →
      some b.playerId ≠ some "pa".toList →
      a.eliminatedRound = some 12 → b.eliminatedRound = some 12 →
      standingsCmp (some "pa".toList) a b = 0) :=
  C7_final_standings fixC7Final (some "pa".toList) 12

/-! ## Normalization idempotence: groundwork -/

set_option maxRecDepth 40000 in
/-- C8 counterexample: the double space in "bonus  track" defeats the
single-spaced phrase regex, the final whitespace collapse then produces the
phrase "bonus track", and a second normalization pass removes it. -/
theorem C8_counterexample :
    normalizeString "bonus  track".toList = "bonus track".toList ∧
    normalizeString (normalizeString "bonus  track".toList) = [] ∧
    ¬ normalizeString (normalizeString "bonus  track".toList)
        = normalizeString "bonus  track".toList :=
  ⟨by decide, by decide, by decide⟩


theorem charLe_iff (a b : Char) : (a ≤ b) ↔ a.toNat ≤ b.toNat := by
  rw [Char.le_def]
  exact Iff.rfl

theorem char_toNat_ofNat (n : Nat) (h : n.isValidChar) : (Char.ofNat n).toNat = n := by
  unfold Char.ofNat
  rw [dif_pos h]
  rfl

theorem toLower_eq_self (c : Char) (h : isUpperAZ c = false) : Char.toLower c = c := by
  simp only [Char.toLower]
  rw [if_neg]
  intro hc
  rw [isUpperAZ] at h
  have hT : ('A' ≤ c && c ≤ 'Z') = true := by
    rw [Bool.and_eq_true, decide_eq_true_eq, decide_eq_true_eq]
    exact ⟨(charLe_iff _ _).mpr hc.1, (charLe_iff _ _).mpr hc.2⟩
  rw [h] at hT
  exact Bool.noConfusion hT

theorem toLower_not_upper (c : Char) : isUpperAZ (Char.toLower c) = false := by
  simp only [Char.toLower]
  by_cases hc : c.toNat ≥ 65 ∧ c.toNat ≤ 90
  · rw [if_pos hc]
    have hv : (c.toNat + 32).isValidChar := by
      left
      omega
    rw [isUpperAZ, Bool.eq_false_iff]
    intro htrue
    rw [Bool.and_eq_true, decide_eq_true_eq, decide_eq_true_eq] at htrue
    have h1 := (charLe_iff _ _).mp htrue.1
    have h2 := (charLe_iff _ _).mp htrue.2
    rw [char_toNat_ofNat _ hv] at h1 h2
    have : ('A' : Char).toNat = 65 := rfl
    have : ('Z' : Char).toNat = 90 := rfl
    omega
  · rw [if_neg hc]
    rw [isUpperAZ, Bool.eq_false_iff]
    intro htrue
    rw [Bool.and_eq_true, decide_eq_true_eq, decide_eq_true_eq] at htrue
    exact hc ⟨(charLe_iff _ _).mp htrue.1, (charLe_iff _ _).mp htrue.2⟩

theorem ws_not_word (c : Char) (h : isWsChar c = true) : isWordChar c = false := by
  rw [isWsChar] at h
  simp only [Bool.or_eq_true, beq_iff_eq] at h
  rcases h with ((((rfl | rfl) | rfl) | rfl) | rfl) | rfl <;> decide

theorem word_not_ws (c : Char) (h : isWordChar c = true) : isWsChar c = false := by
  by_cases hws : isWsChar c = true
  · rw [ws_not_word c hws] at h
    exact Bool.noConfusion h
  · exact eq_false_of_ne_true hws

theorem good_not_dash (c : Char) (h : isWordChar c = true ∨ c = ' ') :
    isDashChar c = false := by
  by_cases hd : isDashChar c = true
  · rw [isDashChar] at hd
    simp only [Bool.or_eq_true, beq_iff_eq] at hd
    rcases hd with (rfl | rfl) | rfl <;> revert h <;> decide
  · exact eq_false_of_ne_true hd

theorem good_ne (c : Char) (h : isWordChar c = true ∨ c = ' ') (d : Char)
    (hdw : isWordChar d = false) (hds : d ≠ ' ') : c ≠ d := by
  rintro rfl
  rcases h with h | h
  · rw [h] at hdw
    exact Bool.noConfusion hdw
  · exact hds h

theorem occBoundaryB_ne_nil (pre : Str) (h : pre ≠ []) (pw pw' : Bool) :
    occBoundaryB pw pre = occBoundaryB pw' pre := by
  obtain ⟨d, hd⟩ := List.getLast?_isSome.mpr h |> Option.isSome_iff_exists.mp
  rw [occBoundaryB, occBoundaryB, hd]

theorem occursWord_nil (w : Str) (hw : w ≠ []) (pw : Bool) : ¬ OccursWord w pw [] := by
  rintro ⟨pre, post, habs, _, _⟩
  rcases List.append_eq_nil.mp habs.symm with ⟨hpre, hpost⟩
  rcases List.append_eq_nil.mp hpre with ⟨_, hw'⟩
  exact hw hw'

theorem boundaryAfterOk_eq_head (a b : Str) (h : a.head? = b.head?) :
    boundaryAfterOk a = boundaryAfterOk b := by
  cases a with
  | nil =>
    cases b with
    | nil => rfl
    | cons d r => exact Option.noConfusion h
  | cons d r =>
    cases b with
    | nil => exact Option.noConfusion h
    | cons e s =>
      obtain rfl : d = e := Option.some.inj h
      rfl

theorem occursWord_cons (w : Str) (pw : Bool) (c : Char) (l : Str) :
    OccursWord w pw (c :: l) ↔
      ((pw = false ∧ w.isPrefixOf (c :: l) = true ∧
        boundaryAfterOk (List.drop w.length (c :: l)) = true) ∨
       OccursWord w (isWordChar c) l) := by
  constructor
  · rintro ⟨pre, post, heq, hB, hA⟩
    cases pre with
    | nil =>
      left
      simp only [List.nil_append] at heq
      refine ⟨?_, ?_, ?_⟩
      · rw [occBoundaryB] at hB
        simp only [List.getLast?_nil, Bool.not_eq_true'] at hB
        exact hB
      · rw [List.isPrefixOf_iff_prefix]
        exact ⟨post, heq.symm⟩
      · rw [heq, List.drop_left]
        exact hA
    | cons p pre' =>
      right
      simp only [List.cons_append] at heq
      injection heq with h1 h2
      subst h1
      refine ⟨pre', post, h2, ?_, hA⟩
      cases pre' with
      | nil =>
        rw [occBoundaryB] at hB ⊢
        simp only [List.getLast?_nil]
        simp only [List.getLast?_singleton] at hB
        exact hB
      | cons q pre'' =>
        have h1 : occBoundaryB pw (c :: q :: pre'') = occBoundaryB pw (q :: pre'') := by
          rw [occBoundaryB, occBoundaryB, List.getLast?_cons_cons]
        rw [occBoundaryB_ne_nil (q :: pre'') (by simp) (isWordChar c) pw, ← h1]
        exact hB
  · rintro (⟨hpw, hpref, hbnd⟩ | ⟨pre, post, heq, hB, hA⟩)
    · obtain ⟨post, hpost⟩ := List.isPrefixOf_iff_prefix.mp hpref
      refine ⟨[], post, by rw [← hpost]; rfl, ?_, ?_⟩
      · rw [occBoundaryB]
        simp [hpw]
      · rw [← hpost, List.drop_left] at hbnd
        exact hbnd
    · refine ⟨c :: pre, post, by rw [heq]; rfl, ?_, hA⟩
      cases pre with
      | nil =>
        rw [occBoundaryB] at hB ⊢
        simp only [List.getLast?_nil, Bool.not_eq_true'] at hB
        simp only [List.getLast?_singleton]
        simp [hB]
      | cons q pre'' =>
        rw [occBoundaryB, List.getLast?_cons_cons]
        rw [occBoundaryB] at hB
        exact hB

theorem occursWord_lift (w : Str) (c : Char) (l : Str) (pw : Bool)
    (h : OccursWord w (isWordChar c) l) : OccursWord w pw (c :: l) :=
  (occursWord_cons w pw c l).mpr (Or.inr h)

theorem occursWord_append_left (w u : Str) (hu : u ≠ []) (m : Str) (pw : Bool)
    (h : OccursWord w (isWordChar (u.getLast hu)) m) : OccursWord w pw (u ++ m) := by
  obtain ⟨pre, post, heq, hB, hA⟩ := h
  refine ⟨u ++ pre, post, by rw [heq]; simp, ?_, hA⟩
  cases pre with
  | nil =>
    rw [occBoundaryB] at hB ⊢
    simp only [List.getLast?_nil, Bool.not_eq_true'] at hB
    simp only [List.append_nil]
    rw [List.getLast?_eq_getLast _ hu]
    simp [hB]
  | cons q pre'' =>
    rw [occBoundaryB, List.getLast?_append_of_ne_nil _ (by simp)]
    rw [occBoundaryB] at hB
    exact hB

theorem hasWordOcc_iff (w : Str) (hw : w ≠ []) (pw : Bool) (l : Str) :
    hasWordOcc w pw l = true ↔ OccursWord w pw l := by
  induction l generalizing pw with
  | nil =>
    simp only [hasWordOcc]
    exact iff_of_false (by simp) (occursWord_nil w hw pw)
  | cons c rest ih =>
    rw [occursWord_cons w pw c rest]
    simp only [hasWordOcc, Bool.or_eq_true, Bool.and_eq_true, Bool.not_eq_true']
    rw [ih (isWordChar c)]
    tauto

theorem occ_weaken (w : Str) (pw : Bool) (l : Str) (h : OccursWord w pw l) :
    OccursWord w false l := by
  obtain ⟨pre, post, heq, hB, hA⟩ := h
  refine ⟨pre, post, heq, ?_, hA⟩
  cases pre with
  | nil => rfl
  | cons q p =>
    rw [occBoundaryB_ne_nil (q :: p) (by simp) false pw]
    exact hB

theorem occ_of_headMatch (w l : Str) (h : headMatchB w l) : OccursWord w false l := by
  obtain ⟨hpref, hbnd⟩ := h
  obtain ⟨post, hpost⟩ := List.isPrefixOf_iff_prefix.mp hpref
  refine ⟨[], post, by rw [← hpost]; rfl, rfl, ?_⟩
  rw [← hpost, List.drop_left] at hbnd
  exact hbnd

theorem occB_false_of_all (u : Str) (hu : ∀ c ∈ u, isWordChar c = false) :
    occBoundaryB false u = true := by
  cases hu0 : u.getLast? with
  | none =>
    rw [occBoundaryB, hu0]
    rfl
  | some d =>
    obtain ⟨hne, hdd⟩ := List.mem_getLast?_eq_getLast (Option.mem_def.mpr hu0)
    have hd : d ∈ u := hdd ▸ List.getLast_mem hne
    rw [occBoundaryB, hu0]
    show (!isWordChar d) = true
    rw [hu d hd]
    rfl

theorem occB_append_right (pw pw' : Bool) (u pre : Str) (h : pre ≠ []) :
    occBoundaryB pw (u ++ pre) = occBoundaryB pw' pre := by
  obtain ⟨d, hd⟩ := List.getLast?_isSome.mpr h |> Option.isSome_iff_exists.mp
  rw [occBoundaryB, occBoundaryB, List.getLast?_append_of_ne_nil _ h, hd]

theorem bA_append (post v : Str) (hv : ∀ c ∈ v, isWordChar c = false)
    (hA : boundaryAfterOk post = true) : boundaryAfterOk (post ++ v) = true := by
  cases post with
  | nil =>
    cases v with
    | nil => rfl
    | cons c v' => simp [boundaryAfterOk, hv c (by simp)]
  | cons c p => exact hA

theorem occ_surround (w u t v : Str)
    (hu : ∀ c ∈ u, isWordChar c = false) (hv : ∀ c ∈ v, isWordChar c = false)
    (h : OccursWord w false t) : OccursWord w false (u ++ t ++ v) := by
  obtain ⟨pre, post, heq, hB, hA⟩ := h
  refine ⟨u ++ pre, post ++ v, by rw [heq]; simp, ?_, bA_append post v hv hA⟩
  cases pre with
  | nil =>
    rw [List.append_nil]
    exact occB_false_of_all u hu
  | cons q p =>
    rw [occB_append_right false false u (q :: p) (by simp)]
    exact hB

theorem removeWordAux_noop (w : Str) (fuel : Nat) (pw : Bool) (l : Str)
    (h : hasWordOcc w pw l = false) : removeWordAux w fuel pw l = l := by
  induction fuel generalizing pw l with
  | zero => rfl
  | succ fuel ih =>
    cases l with
    | nil => rfl
    | cons c rest =>
      simp only [hasWordOcc, Bool.or_eq_false_iff] at h
      rw [removeWordAux, if_neg (by simp [h.1])]
      rw [ih (isWordChar c) rest h.2]

theorem removeWordAux_head_true (w : Str) (fuel : Nat) (l : Str) :
    (removeWordAux w fuel true l).head? = l.head? := by
  cases fuel with
  | zero => rfl
  | succ fuel =>
    cases l with
    | nil => rfl
    | cons c rest =>
      rw [removeWordAux, if_neg (by simp)]
      rfl

theorem removeEnclosedAux_noop (opn close : Char) (fuel : Nat) (l : Str)
    (h : ∀ c ∈ l, c ≠ opn) : removeEnclosedAux opn close fuel l = l := by
  induction fuel generalizing l with
  | zero => rfl
  | succ fuel ih =>
    cases l with
    | nil => rfl
    | cons c rest =>
      rw [removeEnclosedAux, if_neg (h c (by simp))]
      rw [ih rest (fun d hd => h d (List.mem_cons_of_mem c hd))]

theorem dashRemainder_none (l : Str) (h : ∀ c ∈ l, isDashChar c = false) :
    dashRemainder l = none := by
  rw [dashRemainder]
  cases hd : l.dropWhile isWsChar with
  | nil => rfl
  | cons d after =>
    have hdm : d ∈ l.dropWhile isWsChar := by rw [hd]; exact List.mem_cons_self d after
    have hdl : d ∈ l := (List.dropWhile_sublist _).mem hdm
    simp [h d hdl]

theorem removeDashVersionAux_noop (fuel : Nat) (l : Str)
    (h : ∀ c ∈ l, isDashChar c = false) : removeDashVersionAux fuel l = l := by
  induction fuel generalizing l with
  | zero => rfl
  | succ fuel ih =>
    cases l with
    | nil => rfl
    | cons c rest =>
      rw [removeDashVersionAux, dashRemainder_none (c :: rest) h]
      show c :: removeDashVersionAux fuel rest = c :: rest
      rw [ih rest (fun d hd => h d (List.mem_cons_of_mem c hd))]

theorem collapseAcronymsAux_noop (fuel : Nat) (pw : Bool) (l : Str)
    (h : ∀ c ∈ l, c ≠ '.') : collapseAcronymsAux fuel pw l = l := by
  induction fuel generalizing pw l with
  | zero => rfl
  | succ fuel ih =>
    cases l with
    | nil => rfl
    | cons c rest =>
      have hrest : ∀ d ∈ rest, d ≠ '.' := fun d hd => h d (List.mem_cons_of_mem c hd)
      have hstep : collapseAcronymsAux (fuel + 1) pw (c :: rest) =
          c :: collapseAcronymsAux fuel (isWordChar c) rest := by
        by_cases hc : (!pw && isAsciiLetter c) = true
        · cases rest with
          | nil => simp [collapseAcronymsAux, hc]
          | cons d1 r1 =>
            cases r1 with
            | nil => simp [collapseAcronymsAux, hc]
            | cons c2 r2 =>
              cases r2 with
              | nil => simp [collapseAcronymsAux, hc]
              | cons d2 r3 =>
                cases r3 with
                | nil => simp [collapseAcronymsAux, hc]
                | cons c3 rest2 =>
                  have hd1 : d1 ≠ '.' := hrest d1 (by simp)
                  simp [collapseAcronymsAux, hc, hd1]
        · simp [collapseAcronymsAux, hc]
      rw [hstep, ih (isWordChar c) rest hrest]

theorem removeDots_noop (l : Str) (h : ∀ c ∈ l, c ≠ '.') : removeDots l = l := by
  rw [removeDots]
  apply List.filter_eq_self.mpr
  intro a ha
  simp [h a ha]

theorem punctToSpace_noop (l : Str) (h : ∀ c ∈ l, isWordChar c = true ∨ c = ' ') :
    punctToSpace l = l := by
  induction l with
  | nil => rfl
  | cons c rest ih =>
    have hstep : (if isWordChar c || isWsChar c then c else ' ') = c := by
      rcases h c (by simp) with hc | rfl
      · simp [hc]
      · simp [isWsChar]
    calc punctToSpace (c :: rest)
        = (if isWordChar c || isWsChar c then c else ' ') :: punctToSpace rest := rfl
      _ = c :: rest := by
          rw [hstep, ih (fun d hd => h d (List.mem_cons_of_mem c hd))]

theorem toLowerMap_noop (l : Str) (h : ∀ c ∈ l, isUpperAZ c = false) :
    l.map Char.toLower = l := by
  induction l with
  | nil => rfl
  | cons c rest ih =>
    rw [List.map_cons, toLower_eq_self c (h c (by simp)),
      ih (fun d hd => h d (List.mem_cons_of_mem c hd))]

theorem lastWordOk_getLast (w : Str) (hne : w ≠ []) (h : lastWordOk w = true) :
    isWordChar (w.getLast hne) = true := by
  rw [lastWordOk, List.getLast?_eq_getLast _ hne] at h
  exact h

theorem bA_no_head_word (w t l : Str) (hw : ∀ c ∈ w, isWordChar c = true) (hwne : w ≠ [])
    (hl : l = w ++ t) (hbnd : boundaryAfterOk l = true) : False := by
  cases w with
  | nil => exact hwne rfl
  | cons a w₁ =>
    subst hl
    simp [boundaryAfterOk, hw a (by simp)] at hbnd

theorem removeWordAux_hm_reflect (w' : Str) :
    ∀ (w : Str), (∀ c ∈ w, isWordChar c = true) →
      ∀ (l : Str) (fuel : Nat), l.length ≤ fuel →
        headMatchB w (removeWordAux w' fuel true l) → headMatchB w l := by
  intro w
  induction w with
  | nil =>
    intro _ l fuel hfuel h
    obtain ⟨hpref, hbnd⟩ := h
    simp only [List.length_nil, List.drop_zero] at hbnd
    refine ⟨by cases l <;> rfl, ?_⟩
    simp only [List.length_nil, List.drop_zero]
    rw [boundaryAfterOk_eq_head l (removeWordAux w' fuel true l)
      (removeWordAux_head_true w' fuel l).symm]
    exact hbnd
  | cons a w₁ ih =>
    intro hw l fuel hfuel h
    have hw₁ : ∀ c ∈ w₁, isWordChar c = true := fun c hc => hw c (List.mem_cons_of_mem a hc)
    cases fuel with
    | zero => exact h
    | succ fuel =>
      cases l with
      | nil =>
        obtain ⟨hpref, _⟩ := h
        simp [List.isPrefixOf] at hpref
      | cons c rest =>
        have hkey : removeWordAux w' (fuel+1) true (c :: rest) =
            c :: removeWordAux w' fuel (isWordChar c) rest := by
          rw [removeWordAux, if_neg (by simp)]
        rw [hkey] at h
        obtain ⟨hpref, hbnd⟩ := h
        simp only [List.isPrefixOf, Bool.and_eq_true, beq_iff_eq] at hpref
        obtain ⟨rfl, hp₁⟩ := hpref
        have hiwc : isWordChar a = true := hw a (by simp)
        rw [hiwc] at hp₁
        simp only [List.length_cons, List.drop_succ_cons] at hbnd
        rw [hiwc] at hbnd
        have hrec := ih hw₁ rest fuel
          (by simp only [List.length_cons] at hfuel; omega) ⟨hp₁, hbnd⟩
        obtain ⟨hq, hbq⟩ := hrec
        refine ⟨?_, ?_⟩
        · simp [List.isPrefixOf, hq]
        · simp only [List.length_cons, List.drop_succ_cons]
          exact hbq

theorem removeWordAux_occ_preserve (w' w : Str)
    (hw'h : headWordOk w' = true) (hw'l : lastWordOk w' = true)
    (hw : ∀ c ∈ w, isWordChar c = true) (hwne : w ≠ []) :
    ∀ (fuel : Nat) (l : Str) (pw : Bool), l.length ≤ fuel →
      ¬ OccursWord w pw l → ¬ OccursWord w pw (removeWordAux w' fuel pw l) := by
  have hw'ne : w' ≠ [] := by
    intro he
    rw [he] at hw'h
    simp [headWordOk] at hw'h
  have hlast : isWordChar (w'.getLast hw'ne) = true := lastWordOk_getLast w' hw'ne hw'l
  intro fuel
  induction fuel with
  | zero => intro l pw _ h; exact h
  | succ fuel ih =>
    intro l pw hlen hno
    cases l with
    | nil => exact hno
    | cons c rest =>
      by_cases hc : (!pw && w'.isPrefixOf (c :: rest) &&
          boundaryAfterOk (List.drop w'.length (c :: rest))) = true
      · rw [removeWordAux, if_pos hc]
        simp only [Bool.and_eq_true, Bool.not_eq_true'] at hc
        obtain ⟨⟨hpw, hpref⟩, hbnd⟩ := hc
        obtain ⟨rest', hrest'⟩ := List.isPrefixOf_iff_prefix.mp hpref
        have hdrop : List.drop w'.length (c :: rest) = rest' := by
          rw [← hrest', List.drop_left]
        rw [hdrop]
        rw [hdrop] at hbnd
        subst hpw
        have hlen' : rest'.length ≤ fuel := by
          have h1 := congrArg List.length hrest'
          simp only [List.length_append, List.length_cons] at h1
          have h2 : 0 < w'.length := List.length_pos.mpr hw'ne
          simp only [List.length_cons] at hlen
          omega
        have hnrest' : ¬ OccursWord w true rest' := by
          intro ho
          apply hno
          rw [← hrest']
          exact occursWord_append_left w w' hw'ne rest' false (by rw [hlast]; exact ho)
        intro hocc
        obtain ⟨pre, post, heq, hB, hA⟩ := hocc
        cases pre with
        | nil =>
          simp only [List.nil_append] at heq
          have hm : headMatchB w (removeWordAux w' fuel true rest') := by
            refine ⟨List.isPrefixOf_iff_prefix.mpr ⟨post, heq.symm⟩, ?_⟩
            rw [heq, List.drop_left]
            exact hA
          have hr := removeWordAux_hm_reflect w' w hw rest' fuel hlen' hm
          obtain ⟨t, ht⟩ := List.isPrefixOf_iff_prefix.mp hr.1
          exact bA_no_head_word w t rest' hw hwne ht.symm hbnd
        | cons q p =>
          exact ih rest' true hlen' hnrest'
            ⟨q :: p, post, heq,
              by rw [occBoundaryB_ne_nil _ (by simp) true false]; exact hB, hA⟩
      · rw [removeWordAux, if_neg hc]
        intro hocc
        rw [occursWord_cons w pw c _] at hocc
        rcases hocc with ⟨hpw, hpref, hbnd⟩ | hocc₂
        · have hkey : removeWordAux w' (fuel+1) true (c :: rest) =
              c :: removeWordAux w' fuel (isWordChar c) rest := by
            rw [removeWordAux, if_neg (by simp)]
          have hm : headMatchB w (removeWordAux w' (fuel+1) true (c :: rest)) := by
            rw [hkey]
            exact ⟨hpref, hbnd⟩
          have hr := removeWordAux_hm_reflect w' w hw (c :: rest) (fuel+1) hlen hm
          exact hno ((occursWord_cons w pw c rest).mpr (Or.inl ⟨hpw, hr.1, hr.2⟩))
        · have hno₂ : ¬ OccursWord w (isWordChar c) rest := fun ho =>
            hno ((occursWord_cons w pw c rest).mpr (Or.inr ho))
          exact ih rest (isWordChar c) (by simp only [List.length_cons] at hlen; omega) hno₂ hocc₂

theorem removeWordAux_no_self (w' : Str) (hall : allWordStr w' = true) (hne : w' ≠ []) :
    ∀ (fuel : Nat) (l : Str) (pw : Bool), l.length ≤ fuel →
      ¬ OccursWord w' pw (removeWordAux w' fuel pw l) := by
  have hallmem : ∀ c ∈ w', isWordChar c = true := by
    simpa [allWordStr, List.all_eq_true] using hall
  intro fuel
  induction fuel with
  | zero =>
    intro l pw hlen
    have hl : l = [] := List.length_eq_zero.mp (Nat.le_zero.mp hlen)
    subst hl
    exact occursWord_nil w' hne pw
  | succ fuel ih =>
    intro l pw hlen
    cases l with
    | nil => exact occursWord_nil w' hne pw
    | cons c rest =>
      by_cases hc : (!pw && w'.isPrefixOf (c :: rest) &&
          boundaryAfterOk (List.drop w'.length (c :: rest))) = true
      · rw [removeWordAux, if_pos hc]
        simp only [Bool.and_eq_true, Bool.not_eq_true'] at hc
        obtain ⟨⟨hpw, hpref⟩, hbnd⟩ := hc
        obtain ⟨rest', hrest'⟩ := List.isPrefixOf_iff_prefix.mp hpref
        have hdrop : List.drop w'.length (c :: rest) = rest' := by
          rw [← hrest', List.drop_left]
        rw [hdrop]
        rw [hdrop] at hbnd
        subst hpw
        have hlen' : rest'.length ≤ fuel := by
          have h1 := congrArg List.length hrest'
          simp only [List.length_append, List.length_cons] at h1
          have h2 : 0 < w'.length := List.length_pos.mpr hne
          simp only [List.length_cons] at hlen
          omega
        intro hocc
        obtain ⟨pre, post, heq, hB, hA⟩ := hocc
        cases pre with
        | nil =>
          simp only [List.nil_append] at heq
          have hm : headMatchB w' (removeWordAux w' fuel true rest') := by
            refine ⟨List.isPrefixOf_iff_prefix.mpr ⟨post, heq.symm⟩, ?_⟩
            rw [heq, List.drop_left]
            exact hA
          have hr := removeWordAux_hm_reflect w' w' hallmem rest' fuel hlen' hm
          obtain ⟨t, ht⟩ := List.isPrefixOf_iff_prefix.mp hr.1
          exact bA_no_head_word w' t rest' hallmem hne ht.symm hbnd
        | cons q p =>
          exact ih rest' true hlen'
            ⟨q :: p, post, heq,
              by rw [occBoundaryB_ne_nil _ (by simp) true false]; exact hB, hA⟩
      · rw [removeWordAux, if_neg hc]
        intro hocc
        rw [occursWord_cons w' pw c _] at hocc
        rcases hocc with ⟨hpw, hpref, hbnd⟩ | hocc₂
        · have hkey : removeWordAux w' (fuel+1) true (c :: rest) =
              c :: removeWordAux w' fuel (isWordChar c) rest := by
            rw [removeWordAux, if_neg (by simp)]
          have hm : headMatchB w' (removeWordAux w' (fuel+1) true (c :: rest)) := by
            rw [hkey]
            exact ⟨hpref, hbnd⟩
          have hr := removeWordAux_hm_reflect w' w' hallmem (c :: rest) (fuel+1) hlen hm
          exact hc (by simp [hpw, hr.1, hr.2])
        · exact ih rest (isWordChar c) (by simp only [List.length_cons] at hlen; omega) hocc₂

theorem dropWhile_head_not (p : Char → Bool) (l : Str) :
    ∀ d, (l.dropWhile p).head? = some d → p d = false := by
  induction l with
  | nil => intro d hd; exact Option.noConfusion hd
  | cons c rest ih =>
    intro d hd
    rw [List.dropWhile_cons] at hd
    by_cases hc : p c = true
    · rw [if_pos hc] at hd
      exact ih d hd
    · rw [if_neg hc, List.head?_cons] at hd
      obtain rfl : c = d := Option.some.inj hd
      exact (Bool.not_eq_true _) ▸ hc

theorem dropWhile_of_head_not (p : Char → Bool) (l : Str)
    (h : ∀ d, l.head? = some d → p d = false) : l.dropWhile p = l := by
  cases l with
  | nil => rfl
  | cons c rest =>
    rw [List.dropWhile_cons, if_neg (by simp [h c rfl])]

theorem trimSpaces_decomp (l : Str) :
    ∃ u v, l = u ++ trimSpaces l ++ v ∧
      (∀ c ∈ u, isWsChar c = true) ∧ (∀ c ∈ v, isWsChar c = true) := by
  have hy : ((l.dropWhile isWsChar).reverse.dropWhile isWsChar).reverse ++
      ((l.dropWhile isWsChar).reverse.takeWhile isWsChar).reverse = l.dropWhile isWsChar := by
    rw [← List.reverse_append,
      @List.takeWhile_append_dropWhile _ isWsChar (l.dropWhile isWsChar).reverse,
      List.reverse_reverse]
  refine ⟨l.takeWhile isWsChar,
    ((l.dropWhile isWsChar).reverse.takeWhile isWsChar).reverse, ?_, ?_, ?_⟩
  · rw [trimSpaces, List.append_assoc, hy]
    exact (@List.takeWhile_append_dropWhile _ isWsChar l).symm
  · intro c hc
    exact List.mem_takeWhile_imp hc
  · intro c hc
    rw [List.mem_reverse] at hc
    exact List.mem_takeWhile_imp hc

theorem trimSpaces_mem (l : Str) : ∀ c ∈ trimSpaces l, c ∈ l := by
  intro c hc
  rw [trimSpaces, List.mem_reverse] at hc
  have h1 := (List.dropWhile_sublist isWsChar).mem hc
  rw [List.mem_reverse] at h1
  exact (List.dropWhile_sublist isWsChar).mem h1

theorem trimSpaces_head_not (l : Str) :
    ∀ d, (trimSpaces l).head? = some d → isWsChar d = false := by
  intro d hd
  rw [trimSpaces, List.head?_reverse] at hd
  have hne : (l.dropWhile isWsChar).reverse.dropWhile isWsChar ≠ [] := by
    intro he
    rw [he] at hd
    exact Option.noConfusion hd
  obtain ⟨a, ha⟩ :=
    (List.dropWhile_suffix isWsChar :
      (l.dropWhile isWsChar).reverse.dropWhile isWsChar <:+ (l.dropWhile isWsChar).reverse)
  have h2 : ((l.dropWhile isWsChar).reverse).getLast? = some d := by
    rw [← ha, List.getLast?_append_of_ne_nil _ hne]
    exact hd
  rw [List.getLast?_reverse] at h2
  exact dropWhile_head_not isWsChar l d h2

theorem trimSpaces_getLast_not (l : Str) :
    ∀ d, (trimSpaces l).getLast? = some d → isWsChar d = false := by
  intro d hd
  rw [trimSpaces, List.getLast?_reverse] at hd
  exact dropWhile_head_not _ _ d hd

theorem trimSpaces_idem (l : Str) : trimSpaces (trimSpaces l) = trimSpaces l := by
  have h1 : (trimSpaces l).dropWhile isWsChar = trimSpaces l :=
    dropWhile_of_head_not _ _ (trimSpaces_head_not l)
  have h2 : (trimSpaces l).reverse.dropWhile isWsChar = (trimSpaces l).reverse := by
    apply dropWhile_of_head_not
    intro d hd
    rw [List.head?_reverse] at hd
    exact trimSpaces_getLast_not l d hd
  show (((trimSpaces l).dropWhile isWsChar).reverse.dropWhile isWsChar).reverse = trimSpaces l
  rw [h1, h2, List.reverse_reverse]

theorem collapseWsAux_head_true (rest : Str) :
    ∀ d, (collapseWsAux true rest).head? = some d → isWsChar d = false := by
  induction rest with
  | nil => intro d hd; exact Option.noConfusion hd
  | cons c r ih =>
    intro d hd
    by_cases hc : isWsChar c = true
    · rw [collapseWsAux, if_pos hc, if_pos rfl] at hd
      exact ih d hd
    · rw [collapseWsAux, if_neg hc, List.head?_cons] at hd
      obtain rfl : c = d := Option.some.inj hd
      exact (Bool.not_eq_true _) ▸ hc

theorem collapseWsAux_true_eq (l : Str)
    (h : ∀ d, l.head? = some d → isWsChar d = false) :
    collapseWsAux true l = collapseWsAux false l := by
  cases l with
  | nil => rfl
  | cons c rest =>
    have hc : isWsChar c = false := h c rfl
    rw [collapseWsAux, collapseWsAux, if_neg (by simp [hc]), if_neg (by simp [hc])]

theorem collapseWsAux_ws_space (l : Str) :
    ∀ pws, ∀ c ∈ collapseWsAux pws l, isWsChar c = true → c = ' ' := by
  induction l with
  | nil =>
    intro pws c hc _
    cases pws <;> simp [collapseWsAux] at hc
  | cons a rest ih =>
    intro pws c hc hws
    by_cases ha : isWsChar a = true
    · rw [collapseWsAux, if_pos ha] at hc
      by_cases hp : pws = true
      · rw [if_pos hp] at hc
        exact ih true c hc hws
      · rw [if_neg hp] at hc
        rcases List.mem_cons.mp hc with rfl | hc₂
        · rfl
        · exact ih true c hc₂ hws
    · rw [collapseWsAux, if_neg ha] at hc
      rcases List.mem_cons.mp hc with rfl | hc₂
      · exact absurd hws (by simp [ha])
      · exact ih false c hc₂ hws

theorem collapseWsAux_chain (l : Str) :
    ∀ pws, List.Chain' (fun a b => isWsChar a = true → isWsChar b = false)
      (collapseWsAux pws l) := by
  induction l with
  | nil =>
    intro pws
    cases pws <;> exact List.chain'_nil
  | cons a rest ih =>
    intro pws
    by_cases ha : isWsChar a = true
    · rw [collapseWsAux, if_pos ha]
      by_cases hp : pws = true
      · rw [if_pos hp]
        exact ih true
      · rw [if_neg hp]
        rw [List.chain'_cons']
        refine ⟨?_, ih true⟩
        intro y hy _
        exact collapseWsAux_head_true rest y (Option.mem_def.mp hy)
    · rw [collapseWsAux, if_neg ha]
      rw [List.chain'_cons']
      refine ⟨?_, ih false⟩
      intro y _ hwa
      exact absurd hwa (by simp [ha])

theorem collapseWsAux_mem (l : Str) :
    ∀ pws, ∀ c ∈ collapseWsAux pws l, c ∈ l ∨ c = ' ' := by
  induction l with
  | nil =>
    intro pws c hc
    cases pws <;> simp [collapseWsAux] at hc
  | cons a rest ih =>
    intro pws c hc
    by_cases ha : isWsChar a = true
    · rw [collapseWsAux, if_pos ha] at hc
      by_cases hp : pws = true
      · rw [if_pos hp] at hc
        rcases ih true c hc with h | h
        · exact Or.inl (List.mem_cons_of_mem a h)
        · exact Or.inr h
      · rw [if_neg hp] at hc
        rcases List.mem_cons.mp hc with rfl | hc₂
        · exact Or.inr rfl
        · rcases ih true c hc₂ with h | h
          · exact Or.inl (List.mem_cons_of_mem a h)
          · exact Or.inr h
    · rw [collapseWsAux, if_neg ha] at hc
      rcases List.mem_cons.mp hc with rfl | hc₂
      · exact Or.inl (List.mem_cons_self _ _)
      · rcases ih false c hc₂ with h | h
        · exact Or.inl (List.mem_cons_of_mem a h)
        · exact Or.inr h

theorem collapseWs_noop : ∀ (l : Str),
    (∀ c ∈ l, isWsChar c = true → c = ' ') →
    List.Chain' (fun a b => isWsChar a = true → isWsChar b = false) l →
    collapseWs l = l := by
  intro l
  induction l with
  | nil => intro _ _; rfl
  | cons a rest ih =>
    intro hsp hch
    have hrestsp : ∀ c ∈ rest, isWsChar c = true → c = ' ' :=
      fun c hc => hsp c (List.mem_cons_of_mem a hc)
    have hrestch := (List.chain'_cons'.mp hch).2
    have hihr : collapseWsAux false rest = rest := ih hrestsp hrestch
    by_cases ha : isWsChar a = true
    · have ha' : a = ' ' := hsp a (by simp) ha
      have hhead : ∀ d, rest.head? = some d → isWsChar d = false := by
        intro d hd
        exact (List.chain'_cons'.mp hch).1 d (Option.mem_def.mpr hd) ha
      show collapseWsAux false (a :: rest) = a :: rest
      rw [collapseWsAux, if_pos ha, if_neg (by simp),
        collapseWsAux_true_eq rest hhead, hihr, ha']
    · show collapseWsAux false (a :: rest) = a :: rest
      rw [collapseWsAux, if_neg ha, hihr]

theorem collapseWsAux_hm_origin :
    ∀ (l : Str) (pws : Bool) (w : Str), (∀ c ∈ w, isWordChar c = true) →
      headMatchB w (collapseWsAux pws l) →
      ∃ u t, l = u ++ w ++ t ∧ (∀ c ∈ u, isWsChar c = true) ∧
        (u = [] ∨ pws = true) ∧ boundaryAfterOk t = true := by
  intro l
  induction l with
  | nil =>
    intro pws w hw h
    obtain ⟨hpref, hbnd⟩ := h
    have hnil : collapseWsAux pws [] = ([] : Str) := by cases pws <;> rfl
    rw [hnil] at hpref
    have hwnil : w = [] := by
      cases w with
      | nil => rfl
      | cons a w₁ => simp [List.isPrefixOf] at hpref
    subst hwnil
    exact ⟨[], [], rfl, by simp, Or.inl rfl, rfl⟩
  | cons a rest ih =>
    intro pws w hw h
    by_cases ha : isWsChar a = true
    · by_cases hp : pws = true
      · have hred : collapseWsAux pws (a :: rest) = collapseWsAux true rest := by
          rw [collapseWsAux, if_pos ha, if_pos hp]
        rw [hred] at h
        obtain ⟨u, t, hrest, hu, _, hbA⟩ := ih true w hw h
        refine ⟨a :: u, t, by rw [hrest]; rfl, ?_, Or.inr hp, hbA⟩
        intro c hc
        rcases List.mem_cons.mp hc with rfl | hc₂
        · exact ha
        · exact hu c hc₂
      · have hred : collapseWsAux pws (a :: rest) = ' ' :: collapseWsAux true rest := by
          rw [collapseWsAux, if_pos ha, if_neg hp]
        rw [hred] at h
        obtain ⟨hpref, hbnd⟩ := h
        cases w with
        | nil =>
          refine ⟨[], a :: rest, rfl, by simp, Or.inl rfl, ?_⟩
          simp [boundaryAfterOk, ws_not_word a ha]
        | cons b w₁ =>
          simp only [List.isPrefixOf, Bool.and_eq_true, beq_iff_eq] at hpref
          obtain ⟨rfl, -⟩ := hpref
          exact absurd (hw ' ' (List.mem_cons_self _ _)) (by decide)
    · have hred : collapseWsAux pws (a :: rest) = a :: collapseWsAux false rest := by
        rw [collapseWsAux, if_neg ha]
      rw [hred] at h
      obtain ⟨hpref, hbnd⟩ := h
      cases w with
      | nil =>
        refine ⟨[], a :: rest, rfl, by simp, Or.inl rfl, ?_⟩
        simp only [List.length_nil, List.drop_zero] at hbnd
        simpa [boundaryAfterOk] using hbnd
      | cons b w₁ =>
        simp only [List.isPrefixOf, Bool.and_eq_true, beq_iff_eq] at hpref
        obtain ⟨rfl, hp₁⟩ := hpref
        simp only [List.length_cons, List.drop_succ_cons] at hbnd
        obtain ⟨u, t, hrest, hu, hualt, hbA⟩ :=
          ih false w₁ (fun c hc => hw c (List.mem_cons_of_mem _ hc)) ⟨hp₁, hbnd⟩
        have hunil : u = [] := by
          rcases hualt with h | h
          · exact h
          · exact absurd h (by simp)
        subst hunil
        simp only [List.nil_append] at hrest
        exact ⟨[], t, by rw [hrest]; rfl, by simp, Or.inl rfl, hbA⟩

theorem collapseWsAux_occ_reflect (w : Str) (hw : ∀ c ∈ w, isWordChar c = true)
    (hwne : w ≠ []) :
    ∀ (l : Str) (pws pw : Bool), OccursWord w pw (collapseWsAux pws l) → OccursWord w pw l := by
  intro l
  induction l with
  | nil =>
    intro pws pw h
    have hnil : collapseWsAux pws [] = ([] : Str) := by cases pws <;> rfl
    rw [hnil] at h
    exact absurd h (occursWord_nil w hwne pw)
  | cons a rest ih =>
    intro pws pw h
    by_cases ha : isWsChar a = true
    · by_cases hp : pws = true
      · have hred : collapseWsAux pws (a :: rest) = collapseWsAux true rest := by
          rw [collapseWsAux, if_pos ha, if_pos hp]
        rw [hred] at h
        apply occursWord_lift w a rest pw
        rw [ws_not_word a ha]
        exact occ_weaken w pw rest (ih true pw h)
      · have hred : collapseWsAux pws (a :: rest) = ' ' :: collapseWsAux true rest := by
          rw [collapseWsAux, if_pos ha, if_neg hp]
        rw [hred, occursWord_cons w pw ' ' _] at h
        rcases h with ⟨hpw, hpref, hbnd⟩ | h₂
        · cases w with
          | nil => exact absurd rfl hwne
          | cons b w₁ =>
            simp only [List.isPrefixOf, Bool.and_eq_true, beq_iff_eq] at hpref
            obtain ⟨rfl, -⟩ := hpref
            exact absurd (hw ' ' (List.mem_cons_self _ _)) (by decide)
        · have hsp : isWordChar ' ' = false := by decide
          rw [hsp] at h₂
          apply occursWord_lift w a rest pw
          rw [ws_not_word a ha]
          exact ih true false h₂
    · have hred : collapseWsAux pws (a :: rest) = a :: collapseWsAux false rest := by
        rw [collapseWsAux, if_neg ha]
      rw [hred, occursWord_cons w pw a _] at h
      rcases h with ⟨hpw, hpref, hbnd⟩ | h₂
      · have hm : headMatchB w (collapseWsAux pws (a :: rest)) := by
          rw [hred]
          exact ⟨hpref, hbnd⟩
        obtain ⟨u, t, hl, hu, -, hbA⟩ := collapseWsAux_hm_origin (a :: rest) pws w hw hm
        subst hpw
        exact ⟨u, t, hl, occB_false_of_all u (fun c hc => ws_not_word c (hu c hc)), hbA⟩
      · rw [occursWord_cons w pw a rest]
        exact Or.inr (ih false (isWordChar a) h₂)

theorem trimSpaces_occ_reflect (w : Str) (l : Str) (pw : Bool)
    (h : OccursWord w pw (trimSpaces l)) : OccursWord w false l := by
  obtain ⟨u, v, hl, hu, hv⟩ := trimSpaces_decomp l
  rw [hl]
  exact occ_surround w u (trimSpaces l) v
    (fun c hc => ws_not_word c (hu c hc)) (fun c hc => ws_not_word c (hv c hc))
    (occ_weaken w pw _ h)

theorem dropToClose_mem (close : Char) : ∀ (l after : Str),
    dropToClose close l = some after → ∀ c ∈ after, c ∈ l := by
  intro l
  induction l with
  | nil =>
    intro after h
    exact absurd h (by simp [dropToClose])
  | cons a cs ih =>
    intro after h c hc
    rw [dropToClose] at h
    by_cases hac : a = close
    · rw [if_pos hac] at h
      obtain rfl := Option.some.inj h
      exact List.mem_cons_of_mem a hc
    · rw [if_neg hac] at h
      exact List.mem_cons_of_mem a (ih after h c hc)

theorem removeEnclosedAux_mem (opn close : Char) :
    ∀ (fuel : Nat) (l : Str), ∀ c ∈ removeEnclosedAux opn close fuel l, c ∈ l := by
  intro fuel
  induction fuel with
  | zero => intro l c hc; exact hc
  | succ fuel ih =>
    intro l c hc
    cases l with
    | nil => exact hc
    | cons a rest =>
      rw [removeEnclosedAux] at hc
      by_cases hao : a = opn
      · rw [if_pos hao] at hc
        cases hd : dropToClose close rest with
        | some after =>
          rw [hd] at hc
          have hc' : c ∈ removeEnclosedAux opn close fuel after := hc
          exact List.mem_cons_of_mem a (dropToClose_mem close rest after hd c (ih after c hc'))
        | none =>
          rw [hd] at hc
          exact (hc : c ∈ a :: rest)
      · rw [if_neg hao] at hc
        rcases List.mem_cons.mp hc with rfl | hc₂
        · exact List.mem_cons_self _ _
        · exact List.mem_cons_of_mem a (ih rest c hc₂)

theorem dashRemainder_mem (l after : Str) (h : dashRemainder l = some after) :
    ∀ c ∈ after, c ∈ l := by
  intro c hc
  rw [dashRemainder] at h
  split at h
  next => exact Option.noConfusion h
  next d after₁ hd =>
    split at h
    next =>
      obtain rfl := Option.some.inj h
      have h1 := (List.dropWhile_sublist _).mem hc
      have h2 := (List.dropWhile_sublist _).mem h1
      have h3 : c ∈ l.dropWhile isWsChar := by
        rw [hd]
        exact List.mem_cons_of_mem d h2
      exact (List.dropWhile_sublist _).mem h3
    next => exact Option.noConfusion h

theorem removeDashVersionAux_mem :
    ∀ (fuel : Nat) (l : Str), ∀ c ∈ removeDashVersionAux fuel l, c ∈ l := by
  intro fuel
  induction fuel with
  | zero => intro l c hc; exact hc
  | succ fuel ih =>
    intro l c hc
    cases l with
    | nil => exact hc
    | cons a rest =>
      rw [removeDashVersionAux] at hc
      cases hd : dashRemainder (a :: rest) with
      | some after =>
        rw [hd] at hc
        have hc' : c ∈ removeDashVersionAux fuel after := hc
        exact dashRemainder_mem (a :: rest) after hd c (ih after c hc')
      | none =>
        rw [hd] at hc
        have hc' : c ∈ a :: removeDashVersionAux fuel rest := hc
        rcases List.mem_cons.mp hc' with rfl | hc₂
        · exact List.mem_cons_self _ _
        · exact List.mem_cons_of_mem a (ih rest c hc₂)

theorem acroTail_mem :
    ∀ (slots : List AcroSlot) (b : Bool) (l cap r : Str) (lw : Bool),
      acroTail slots b l = some (cap, lw, r) →
      (∀ c ∈ cap, c ∈ l) ∧ (∀ c ∈ r, c ∈ l) := by
  intro slots
  induction slots with
  | nil =>
    intro b l cap r lw h
    simp only [acroTail] at h
    split at h
    next =>
      simp only [Option.some.injEq, Prod.mk.injEq] at h
      obtain ⟨rfl, rfl, rfl⟩ := h
      exact ⟨by simp, fun c hc => hc⟩
    next => exact Option.noConfusion h
  | cons slot slots ih =>
    intro b l cap r lw h
    cases slot with
    | dot =>
      cases l with
      | nil =>
        simp only [acroTail] at h
        exact ih b [] cap r lw h
      | cons c cs =>
        simp only [acroTail] at h
        by_cases hc : c = '.'
        · subst hc
          rw [if_pos rfl] at h
          cases hat : acroTail slots false cs with
          | some res =>
            rw [hat] at h
            have h' : some res = some (cap, lw, r) := h
            obtain rfl := Option.some.inj h'
            obtain ⟨hcap, hr⟩ := ih false cs cap r lw hat
            exact ⟨fun x hx => List.mem_cons_of_mem _ (hcap x hx),
              fun x hx => List.mem_cons_of_mem _ (hr x hx)⟩
          | none =>
            rw [hat] at h
            have h' : acroTail slots b ('.' :: cs) = some (cap, lw, r) := h
            exact ih b ('.' :: cs) cap r lw h'
        · rw [if_neg hc] at h
          have h' : acroTail slots b (c :: cs) = some (cap, lw, r) := h
          exact ih b (c :: cs) cap r lw h'
    | ltr =>
      cases l with
      | nil =>
        simp only [acroTail] at h
        exact ih b [] cap r lw h
      | cons c cs =>
        simp only [acroTail] at h
        by_cases hc : isAsciiLetter c = true
        · rw [if_pos hc] at h
          cases hat : acroTail slots true cs with
          | some trip =>
            obtain ⟨cap₁, lw₁, r₁⟩ := trip
            rw [hat] at h
            have h' : some (c :: cap₁, lw₁, r₁) = some (cap, lw, r) := h
            simp only [Option.some.injEq, Prod.mk.injEq] at h'
            obtain ⟨rfl, rfl, rfl⟩ := h'
            obtain ⟨hcap, hr⟩ := ih true cs cap₁ r₁ lw₁ hat
            refine ⟨?_, fun x hx => List.mem_cons_of_mem _ (hr x hx)⟩
            intro x hx
            rcases List.mem_cons.mp hx with rfl | hx₂
            · exact List.mem_cons_self _ _
            · exact List.mem_cons_of_mem _ (hcap x hx₂)
          | none =>
            rw [hat] at h
            have h' : acroTail slots b (c :: cs) = some (cap, lw, r) := h
            exact ih b (c :: cs) cap r lw h'
        · rw [if_neg hc] at h
          have h' : acroTail slots b (c :: cs) = some (cap, lw, r) := h
          exact ih b (c :: cs) cap r lw h'

theorem collapseAcronymsAux_mem :
    ∀ (fuel : Nat) (pw : Bool) (l : Str), ∀ c ∈ collapseAcronymsAux fuel pw l, c ∈ l := by
  intro fuel
  induction fuel with
  | zero => intro pw l c hc; exact hc
  | succ fuel ih =>
    intro pw l c hc
    cases l with
    | nil => exact hc
    | cons a rest =>
      by_cases hcond : (!pw && isAsciiLetter a) = true
      case neg =>
        have hstep : collapseAcronymsAux (fuel + 1) pw (a :: rest) =
            a :: collapseAcronymsAux fuel (isWordChar a) rest := by
          simp [collapseAcronymsAux, hcond]
        rw [hstep] at hc
        rcases List.mem_cons.mp hc with rfl | hc₂
        · exact List.mem_cons_self _ _
        · exact List.mem_cons_of_mem a (ih (isWordChar a) rest c hc₂)
      case pos =>
        cases rest with
        | nil =>
          simp only [collapseAcronymsAux, hcond, if_true] at hc
          rcases List.mem_cons.mp hc with rfl | hc₂
          · exact List.mem_cons_self _ _
          · exact List.mem_cons_of_mem a (ih _ [] c hc₂)
        | cons d1 r1 =>
          cases r1 with
          | nil =>
            simp only [collapseAcronymsAux, hcond, if_true] at hc
            rcases List.mem_cons.mp hc with rfl | hc₂
            · exact List.mem_cons_self _ _
            · exact List.mem_cons_of_mem a (ih _ _ c hc₂)
          | cons c2 r2 =>
            cases r2 with
            | nil =>
              simp only [collapseAcronymsAux, hcond, if_true] at hc
              rcases List.mem_cons.mp hc with rfl | hc₂
              · exact List.mem_cons_self _ _
              · exact List.mem_cons_of_mem a (ih _ _ c hc₂)
            | cons d2 r3 =>
              cases r3 with
              | nil =>
                simp only [collapseAcronymsAux, hcond, if_true] at hc
                rcases List.mem_cons.mp hc with rfl | hc₂
                · exact List.mem_cons_self _ _
                · exact List.mem_cons_of_mem a (ih _ _ c hc₂)
              | cons c3 rest2 =>
                simp only [collapseAcronymsAux, hcond, if_true] at hc
                split at hc
                next =>
                  split at hc
                  next cap lw after hat =>
                    rcases List.mem_cons.mp hc with rfl | hc₂
                    · exact List.mem_cons_self _ _
                    rcases List.mem_cons.mp hc₂ with rfl | hc₃
                    · exact List.mem_cons_of_mem a (List.mem_cons_of_mem d1 (List.mem_cons_self _ _))
                    rcases List.mem_cons.mp hc₃ with rfl | hc₄
                    · exact List.mem_cons_of_mem a (List.mem_cons_of_mem d1
                        (List.mem_cons_of_mem c2 (List.mem_cons_of_mem d2 (List.mem_cons_self _ _))))
                    rcases List.mem_append.mp hc₄ with hcap | hrec
                    · obtain ⟨hcapm, -⟩ := acroTail_mem _ true rest2 cap after lw hat
                      have : c ∈ rest2 := hcapm c hcap
                      exact List.mem_cons_of_mem a (List.mem_cons_of_mem d1
                        (List.mem_cons_of_mem c2 (List.mem_cons_of_mem d2
                          (List.mem_cons_of_mem c3 this))))
                    · obtain ⟨-, hrm⟩ := acroTail_mem _ true rest2 cap after lw hat
                      have h1 := ih lw after c hrec
                      have : c ∈ rest2 := hrm c h1
                      exact List.mem_cons_of_mem a (List.mem_cons_of_mem d1
                        (List.mem_cons_of_mem c2 (List.mem_cons_of_mem d2
                          (List.mem_cons_of_mem c3 this))))
                  next hat =>
                    rcases List.mem_cons.mp hc with rfl | hc₂
                    · exact List.mem_cons_self _ _
                    · exact List.mem_cons_of_mem a (ih _ _ c hc₂)
                next =>
                  rcases List.mem_cons.mp hc with rfl | hc₂
                  · exact List.mem_cons_self _ _
                  · exact List.mem_cons_of_mem a (ih _ _ c hc₂)

theorem removeWordAux_mem (w : Str) :
    ∀ (fuel : Nat) (pw : Bool) (l : Str), ∀ c ∈ removeWordAux w fuel pw l, c ∈ l := by
  intro fuel
  induction fuel with
  | zero => intro pw l c hc; exact hc
  | succ fuel ih =>
    intro pw l c hc
    cases l with
    | nil => exact hc
    | cons a rest =>
      by_cases hcond : (!pw && w.isPrefixOf (a :: rest) &&
          boundaryAfterOk (List.drop w.length (a :: rest))) = true
      · rw [removeWordAux, if_pos hcond] at hc
        exact (List.drop_sublist _ _).mem (ih true _ c hc)
      · rw [removeWordAux, if_neg hcond] at hc
        rcases List.mem_cons.mp hc with rfl | hc₂
        · exact List.mem_cons_self _ _
        · exact List.mem_cons_of_mem a (ih (isWordChar a) rest c hc₂)

theorem foldl_removeWord_mem (L : List Str) :
    ∀ (l : Str), ∀ c ∈ L.foldl (fun acc w => removeWordAux w acc.length false acc) l, c ∈ l := by
  induction L with
  | nil => intro l c hc; exact hc
  | cons w L ih =>
    intro l c hc
    rw [List.foldl_cons] at hc
    exact removeWordAux_mem w l.length false l c (ih _ c hc)

theorem punctToSpace_class (l : Str) :
    ∀ c ∈ punctToSpace l, isWordChar c = true ∨ isWsChar c = true := by
  intro c hc
  rw [punctToSpace, List.mem_map] at hc
  obtain ⟨d, -, hd⟩ := hc
  by_cases h : (isWordChar d || isWsChar d) = true
  · rw [if_pos h] at hd
    subst hd
    simpa using h
  · rw [if_neg h] at hd
    subst hd
    right
    decide

theorem punctToSpace_mem (l : Str) : ∀ c ∈ punctToSpace l, c ∈ l ∨ c = ' ' := by
  intro c hc
  rw [punctToSpace, List.mem_map] at hc
  obtain ⟨d, hdm, hd⟩ := hc
  by_cases h : (isWordChar d || isWsChar d) = true
  · rw [if_pos h] at hd
    subst hd
    exact Or.inl hdm
  · rw [if_neg h] at hd
    subst hd
    exact Or.inr rfl

theorem normalizeString_mem (s : Str) :
    ∀ c ∈ normalizeString s, c = ' ' ∨ ∃ d, c = Char.toLower d := by
  intro c hc
  simp only [normalizeString, collapseWs, removeNoiseWords, removeDots, collapseAcronyms,
    removeDashVersion, removeEnclosed] at hc
  have h1 := trimSpaces_mem _ c hc
  rcases collapseWsAux_mem _ false c h1 with h2 | h2
  case inr => exact Or.inl h2
  have h3 := foldl_removeWord_mem TITLE_NOISE_WORDS _ c h2
  rcases punctToSpace_mem _ c h3 with h4 | h4
  case inr => exact Or.inl h4
  have h5 := List.mem_of_mem_filter h4
  have h6 := collapseAcronymsAux_mem _ false _ c h5
  have h7 := removeDashVersionAux_mem _ _ c h6
  have h8 := removeEnclosedAux_mem '[' ']' _ _ c h7
  have h9 := removeEnclosedAux_mem '(' ')' _ _ c h8
  rw [List.mem_map] at h9
  obtain ⟨d, -, hd⟩ := h9
  exact Or.inr ⟨d, hd.symm⟩

theorem normalizeString_class (s : Str) :
    ∀ c ∈ normalizeString s, isWordChar c = true ∨ c = ' ' := by
  intro c hc
  simp only [normalizeString, collapseWs, removeNoiseWords] at hc
  have h1 := trimSpaces_mem _ c hc
  have hsp := collapseWsAux_ws_space _ false c h1
  rcases collapseWsAux_mem _ false c h1 with h2 | h2
  · have h3 := foldl_removeWord_mem TITLE_NOISE_WORDS _ c h2
    rcases punctToSpace_class _ c h3 with h4 | h4
    · exact Or.inl h4
    · exact Or.inr (hsp h4)
  · exact Or.inr h2

theorem normalizeString_not_upper (s : Str) :
    ∀ c ∈ normalizeString s, isUpperAZ c = false := by
  intro c hc
  rcases normalizeString_mem s c hc with rfl | ⟨d, rfl⟩
  · decide
  · exact toLower_not_upper d

theorem ne_nil_of_headWordOk (w : Str) (h : headWordOk w = true) : w ≠ [] := by
  intro he
  rw [he] at h
  simp [headWordOk] at h

set_option maxRecDepth 10000 in
theorem noise_edge : ∀ u ∈ TITLE_NOISE_WORDS, headWordOk u = true ∧ lastWordOk u = true := by
  decide

set_option maxRecDepth 10000 in
theorem noise_single_or_phrase :
    ∀ u ∈ TITLE_NOISE_WORDS, allWordStr u = true ∨ u = "bonus track".toList ∨
      u = "radio edit".toList ∨ u = "radio version".toList ∨
      u = "single version".toList ∨ u = "album version".toList := by
  decide

theorem occ_tail_word (w₁ w₂ : Str) (l : Str) (pw : Bool)
    (h : OccursWord (w₁ ++ ' ' :: w₂) pw l) : OccursWord w₂ false l := by
  obtain ⟨pre, post, heq, hB, hA⟩ := h
  refine ⟨pre ++ w₁ ++ [' '], post, ?_, ?_, hA⟩
  · rw [heq]
    simp
  · have hl : (pre ++ w₁ ++ [' ']).getLast? = some ' ' := by simp
    rw [occBoundaryB, hl]
    decide

theorem foldl_removeWord_occ_preserve (w : Str)
    (hw : ∀ c ∈ w, isWordChar c = true) (hwne : w ≠ []) :
    ∀ (L : List Str), (∀ u ∈ L, headWordOk u = true ∧ lastWordOk u = true) →
      ∀ (l : Str), ¬ OccursWord w false l →
        ¬ OccursWord w false (L.foldl (fun acc u => removeWordAux u acc.length false acc) l) := by
  intro L
  induction L with
  | nil => intro _ l h; exact h
  | cons w' L ih =>
    intro hL l h
    rw [List.foldl_cons]
    apply ih (fun u hu => hL u (List.mem_cons_of_mem w' hu))
    exact removeWordAux_occ_preserve w' w (hL w' (by simp)).1 (hL w' (by simp)).2 hw hwne
      l.length l false (le_refl _) h

theorem foldl_removeWord_no_occ (L : List Str)
    (hL : ∀ u ∈ L, headWordOk u = true ∧ lastWordOk u = true) :
    ∀ (w : Str), w ∈ L → allWordStr w = true → ∀ (l : Str),
      ¬ OccursWord w false (L.foldl (fun acc u => removeWordAux u acc.length false acc) l) := by
  induction L with
  | nil =>
    intro w hw
    exact absurd hw (by simp)
  | cons u L ih =>
    intro w hwmem hall l
    rw [List.foldl_cons]
    have hmem : ∀ c ∈ w, isWordChar c = true := by
      simpa [allWordStr, List.all_eq_true] using hall
    rcases List.mem_cons.mp hwmem with rfl | hwmem₂
    · have hwne : w ≠ [] := ne_nil_of_headWordOk w (hL w (by simp)).1
      apply foldl_removeWord_occ_preserve w hmem hwne L
        (fun v hv => hL v (List.mem_cons_of_mem _ hv))
      exact removeWordAux_no_self w hall hwne l.length l false (le_refl _)
    · exact ih (fun v hv => hL v (List.mem_cons_of_mem _ hv)) w hwmem₂ hall _

theorem foldl_removeWord_noop (L : List Str) :
    ∀ (l : Str), (∀ w ∈ L, hasWordOcc w false l = false) →
      L.foldl (fun acc u => removeWordAux u acc.length false acc) l = l := by
  induction L with
  | nil => intro l _; rfl
  | cons u L ih =>
    intro l h
    rw [List.foldl_cons, removeWordAux_noop u l.length false l (h u (by simp))]
    exact ih l (fun w hw => h w (List.mem_cons_of_mem u hw))

theorem normalizeString_no_noise_occ (s : Str) (w : Str) (hmem : w ∈ TITLE_NOISE_WORDS)
    (hall : allWordStr w = true) :
    ¬ OccursWord w false (normalizeString s) := by
  intro hocc
  have hwm : ∀ c ∈ w, isWordChar c = true := by
    simpa [allWordStr, List.all_eq_true] using hall
  have hwne : w ≠ [] := ne_nil_of_headWordOk w (noise_edge w hmem).1
  simp only [normalizeString] at hocc
  have h2 := trimSpaces_occ_reflect w _ false hocc
  rw [collapseWs] at h2
  have h3 := collapseWsAux_occ_reflect w hwm hwne _ false false h2
  rw [removeNoiseWords] at h3
  exact foldl_removeWord_no_occ TITLE_NOISE_WORDS noise_edge w hmem hall _ h3

theorem trim_collapse_chain (x : Str) :
    List.Chain' (fun a b => isWsChar a = true → isWsChar b = false)
      (trimSpaces (collapseWs x)) := by
  obtain ⟨u, v, hd, -, -⟩ := trimSpaces_decomp (collapseWs x)
  exact List.Chain'.infix (collapseWsAux_chain x false) ⟨u, v, hd.symm⟩

theorem normalize_unfold (s : Str) :
    normalizeString s = trimSpaces (collapseWs (removeNoiseWords (punctToSpace (removeDots
      (collapseAcronyms (removeDashVersion (removeEnclosed '[' ']' (removeEnclosed '(' ')'
        (List.map Char.toLower s))))))))) := rfl

theorem collapseWs_trim_collapse (x : Str) :
    collapseWs (trimSpaces (collapseWs x)) = trimSpaces (collapseWs x) := by
  apply collapseWs_noop
  · intro c hc hws
    exact collapseWsAux_ws_space x false c (trimSpaces_mem _ c hc) hws
  · exact trim_collapse_chain x

theorem trimSpaces_normalize (s : Str) :
    trimSpaces (normalizeString s) = normalizeString s := by
  rw [normalize_unfold]
  exact trimSpaces_idem _

theorem phrase_occ_false (s : Str) (w w₁ w₂ : Str) (hw : w ∈ TITLE_NOISE_WORDS)
    (hsplit : w = w₁ ++ ' ' :: w₂) (hmem₂ : w₂ ∈ TITLE_NOISE_WORDS)
    (hall₂ : allWordStr w₂ = true) :
    hasWordOcc w false (normalizeString s) = false := by
  have hno₂ := normalizeString_no_noise_occ s w₂ hmem₂ hall₂
  have hwne : w ≠ [] := ne_nil_of_headWordOk w (noise_edge w hw).1
  cases hcase : hasWordOcc w false (normalizeString s) with
  | false => rfl
  | true =>
    exfalso
    have hoccw := (hasWordOcc_iff w hwne false _).mp hcase
    rw [hsplit] at hoccw
    exact hno₂ (occ_tail_word w₁ w₂ _ false hoccw)

/-- C8: normalization is idempotent as amended — `normalize (normalize s)`
equals `normalize s` for every string `s` whose normalized form contains no
word-boundary-delimited occurrence of the noise phrase "bonus track" (the
unrestricted claim fails, see the counterexample: the first pass can collapse
extra whitespace inside "bonus … track" into exactly that phrase, which only
the second pass then removes). -/
theorem C8_normalize_idempotent (s : Str)
    (hb : hasWordOcc "bonus track".toList false (normalizeString s) = false) :
    normalizeString (normalizeString s) = normalizeString s := by
  have hclass := normalizeString_class s
  have hupper := normalizeString_not_upper s
  have hnot : ∀ (x : Char), isWordChar x = false → x ≠ ' ' →
      ∀ c ∈ normalizeString s, c ≠ x := by
    intro x hx hxsp c hc he
    subst he
    rcases hclass c hc with h | h
    · rw [hx] at h
      exact Bool.false_ne_true h
    · exact hxsp h
  have h1 : (normalizeString s).map Char.toLower = normalizeString s :=
    toLowerMap_noop _ hupper
  have hparen : removeEnclosed '(' ')' (normalizeString s) = normalizeString s := by
    rw [removeEnclosed]
    exact removeEnclosedAux_noop '(' ')' _ _ (hnot '(' (by decide) (by decide))
  have hbrack : removeEnclosed '[' ']' (normalizeString s) = normalizeString s := by
    rw [removeEnclosed]
    exact removeEnclosedAux_noop '[' ']' _ _ (hnot '[' (by decide) (by decide))
  have hdashf : ∀ c ∈ normalizeString s, isDashChar c = false := by
    intro c hc
    cases hdc : isDashChar c
    · rfl
    · exfalso
      have hdc3 : (c = '-' ∨ c = '–') ∨ c = '—' := by
        simpa [isDashChar] using hdc
      rcases hclass c hc with h | h
      · rcases hdc3 with (rfl | rfl) | rfl <;> exact absurd h (by decide)
      · rcases hdc3 with (rfl | rfl) | rfl <;> exact absurd h (by decide)
  have hdash : removeDashVersion (normalizeString s) = normalizeString s := by
    rw [removeDashVersion]
    exact removeDashVersionAux_noop _ _ hdashf
  have hdot : ∀ c ∈ normalizeString s, c ≠ '.' := hnot '.' (by decide) (by decide)
  have hacro : collapseAcronyms (normalizeString s) = normalizeString s := by
    rw [collapseAcronyms]
    exact collapseAcronymsAux_noop _ false _ hdot
  have hdots : removeDots (normalizeString s) = normalizeString s := removeDots_noop _ hdot
  have hpunct : punctToSpace (normalizeString s) = normalizeString s :=
    punctToSpace_noop _ hclass
  have hocc : ∀ w ∈ TITLE_NOISE_WORDS, hasWordOcc w false (normalizeString s) = false := by
    intro w hw
    rcases noise_single_or_phrase w hw with hall | rfl | rfl | rfl | rfl | rfl
    · have hno := normalizeString_no_noise_occ s w hw hall
      have hwne : w ≠ [] := ne_nil_of_headWordOk w (noise_edge w hw).1
      cases hcase : hasWordOcc w false (normalizeString s) with
      | false => rfl
      | true => exact absurd ((hasWordOcc_iff w hwne false _).mp hcase) hno
    · exact hb
    · exact phrase_occ_false s _ "radio".toList "edit".toList hw
        (by decide) (by decide) (by decide)
    · exact phrase_occ_false s _ "radio".toList "version".toList hw
        (by decide) (by decide) (by decide)
    · exact phrase_occ_false s _ "single".toList "version".toList hw
        (by decide) (by decide) (by decide)
    · exact phrase_occ_false s _ "album".toList "version".toList hw
        (by decide) (by decide) (by decide)
  have hnoise : removeNoiseWords (normalizeString s) = normalizeString s := by
    rw [removeNoiseWords]
    exact foldl_removeWord_noop TITLE_NOISE_WORDS _ hocc
  have hcws : collapseWs (normalizeString s) = normalizeString s := by
    rw [normalize_unfold]
    exact collapseWs_trim_collapse _
  have htrim : trimSpaces (normalizeString s) = normalizeString s := trimSpaces_normalize s
  calc normalizeString (normalizeString s)
      = trimSpaces (collapseWs (removeNoiseWords (punctToSpace (removeDots (collapseAcronyms
          (removeDashVersion (removeEnclosed '[' ']' (removeEnclosed '(' ')'
            ((normalizeString s).map Char.toLower))))))))) := normalize_unfold _
    _ = normalizeString s := by
        rw [h1, hparen, hbrack, hdash, hacro, hdots, hpunct, hnoise, hcws, htrim]

set_option maxRecDepth 40000 in
/-- Witness for C8: a concrete input satisfying the no-"bonus track"
hypothesis on which the amended idempotence theorem applies. -/
theorem C8_normalize_idempotent_witness :
    hasWordOcc "bonus track".toList false (normalizeString "Hello (Live) Remix".toList) = false ∧
    normalizeString (normalizeString "Hello (Live) Remix".toList) =
      normalizeString "Hello (Live) Remix".toList :=
  ⟨by decide, C8_normalize_idempotent "Hello (Live) Remix".toList (by decide)⟩

/-- C3: the registry indices do not stay mutually consistent — the code lets
a player rejoin by nickname while the old connection binding is still
present, binds the new connection id, but never deletes the old
`socketToPlayer` entry, which is left pointing at a player whose record now
holds the new connection id.  The same sequence with a `disconnect` between
(the path the spec assumes) stays consistent, isolating the missing cleanup
as the divergence. -/
theorem C3_registry_consistency_violated :
    regSeqAllowed regAllowedOrig initRegistry
      [RegOp.create "Alice".toList "s1".toList "ABCD".toList "p1".toList,
       RegOp.join "ABCD".toList "alice".toList "s2".toList "p2".toList] = true ∧
    registryConsistent (runRegOps
      [RegOp.create "Alice".toList "s1".toList "ABCD".toList "p1".toList,
       RegOp.join "ABCD".toList "alice".toList "s2".toList "p2".toList]) = false ∧
    registryConsistent (runRegOps
      [RegOp.create "Alice".toList "s1".toList "ABCD".toList "p1".toList,
       RegOp.disconnect "s1".toList,
       RegOp.join "ABCD".toList "alice".toList "s2".toList "p2".toList]) = true := by
  refine ⟨?_, ?_, ?_⟩ <;> decide
